import Mathlib

/-
Verification of the spectrum-analyzer audio-analysis core
(`src/utils/audioAnalysis.ts`, `src/utils/musicTheory.ts`).

Modelling conventions:
* JavaScript numbers are modelled as exact rationals (`ℚ`); the code's
  arithmetic on them is modelled by exact rational arithmetic.
* External floating-point builtins and the external `fft.js` library are
  not part of this repository's sources, so they are abstracted as
  function parameters (`fft`, `sqrtQ`, `cosQ`, `piQ`, `log10Q`, `log2Q`,
  `pow2Q`).  Theorems that depend on a property of such a builtin (for
  example `sqrt x ≥ 0` for `x ≥ 0`) take that property as an explicit
  hypothesis.
* JavaScript out-of-range array reads (`undefined`) are modelled with
  `List.getD`/`l[i]?` as noted at each definition.
* `Array.prototype.sort` with a numeric comparator is a stable sort; any
  stable sort computes the same list, so it is modelled by
  `List.insertionSort` (which inserts an element before the equal
  elements that followed it, i.e. is stable).
-/

namespace SpectrumAnalysis

/-- `SpectrogramData` from `audioAnalysis.ts`. -/
structure SpectrogramData where
  frequencies : List ℚ
  times : List ℚ
  magnitudes : List (List ℚ)
deriving DecidableEq

/-- `FrequencySpectrumData` from `audioAnalysis.ts`. -/
structure FrequencySpectrumData where
  frequencies : List ℚ
  magnitudes : List ℚ
deriving DecidableEq

/-- `FundamentalFrequencyData` from `audioAnalysis.ts`. -/
structure FundamentalFrequencyData where
  times : List ℚ
  frequencies : List ℚ
  confidences : List ℚ
deriving DecidableEq

/-- `DetectedNote` from `audioAnalysis.ts`. -/
structure DetectedNote where
  frequency : ℚ
  confidence : ℚ
  magnitude : ℚ
deriving DecidableEq

/-- `NoteFrame` from `audioAnalysis.ts`. -/
structure NoteFrame where
  time : ℚ
  notes : List DetectedNote
deriving DecidableEq

/-- `MultipleNotesData` from `audioAnalysis.ts`. -/
structure MultipleNotesData where
  times : List ℚ
  noteFrames : List NoteFrame
deriving DecidableEq

/-- The anonymous candidate record `{ freq, strength, confidence }` built by
`estimateFundamentalFrequencyWithConfidence`. -/
structure FreqCandidate where
  freq : ℚ
  strength : ℚ
  confidence : ℚ
deriving DecidableEq

/-- `sum` of a list of rationals, written as the source's
`reduce((sum, mag) => sum + mag, 0)`. -/
def sumList (l : List ℚ) : ℚ := l.foldl (fun sum mag => sum + mag) 0

/-- The source's `reduce((sum, mag) => sum + mag * mag, 0)`. -/
def sumSquares (l : List ℚ) : ℚ := l.foldl (fun sum mag => sum + mag * mag) 0

/-- `[...magnitudes].sort((a, b) => b - a)`: stable descending sort of a copy,
modelled by a stable insertion sort. -/
def sortDescQ (l : List ℚ) : List ℚ := l.insertionSort (fun a b => b ≤ a)

/-- `AudioAnalyzer.generateHammingWindow`:
`window[i] = 0.54 - 0.46 * Math.cos(2 * Math.PI * i / (size - 1))`.
`Math.cos` and `Math.PI` are external builtins, abstracted as `cosQ`/`piQ`. -/
def generateHammingWindow (piQ : ℚ) (cosQ : ℚ → ℚ) (size : Nat) : List ℚ :=
  (List.range size).map fun i =>
    0.54 - 0.46 * cosQ (2 * piQ * (Nat.cast i : ℚ) / ((size : ℚ) - 1))

/-- `AudioAnalyzer.generateFrequencyBins`: `binSize = sampleRate / fftSize`,
push `i * binSize` for `i = 0, 1, …` while `i < fftSize / 2` (real division,
so `(fftSize + 1) / 2` iterations; for the even `fftSize` required by the
transform this is `fftSize / 2`). -/
def generateFrequencyBins (sampleRate : ℚ) (fftSize : Nat) : List ℚ :=
  (List.range ((fftSize + 1) / 2)).map fun i =>
    (Nat.cast i : ℚ) * (sampleRate / (fftSize : ℚ))

/-- The loop body of `AudioAnalyzer.calculateMagnitude`: walk the interleaved
complex array two entries at a time pushing `Math.sqrt (re*re + im*im)`.
`fft.js`'s `createComplexArray` always has even length `2 * fftSize`, so the
one-element leftover case is unreachable on the inputs the analyzer builds. -/
def calcMagAux (sqrtQ : ℚ → ℚ) : List ℚ → List ℚ
  | re :: im :: rest => sqrtQ (re * re + im * im) :: calcMagAux sqrtQ rest
  | _ => []

/-- `AudioAnalyzer.calculateMagnitude`: magnitudes of the interleaved complex
spectrum, then `.slice(0, fftSize / 2)`. -/
def calculateMagnitude (sqrtQ : ℚ → ℚ) (fftSize : Nat) (complexSpectrum : List ℚ) : List ℚ :=
  (calcMagAux sqrtQ complexSpectrum).take (fftSize / 2)

/-- The start indices of the framing loop in `AudioAnalyzer.analyzeSpectrum`:
`for (let i = 0; i + fftSize <= channelData.length; i += hopSize)`.
The `while` loop is modelled with fuel; `L + 2` units are enough for every
hop size `h ≥ 1` (the loop runs at most `L + 1` iterations). -/
def frameStartsAux (N h L : Nat) : Nat → Nat → List Nat
  | 0, _ => []
  | fuel + 1, i => if i + N ≤ L then i :: frameStartsAux N h L fuel (i + h) else []

/-- All frame start indices for transform size `N`, hop `h`, signal length `L`. -/
def frameStarts (N h L : Nat) : List Nat := frameStartsAux N h L (L + 2) 0

/-- The windowed segment extracted at `start`:
`segment[j] = channelData[start + j] * windowFunction[j]`. The loop bound
`start + fftSize ≤ signal.length` keeps every read in range, so `getD` with
default `0` agrees with the source. -/
def windowedSegment (signal window : List ℚ) (fftSize start : Nat) : List ℚ :=
  (List.range fftSize).map fun j => signal.getD (start + j) 0 * window.getD j 0

/-- `AudioAnalyzer.analyzeSpectrum`.  The external real FFT
(`fft.realTransform` into `fft.createComplexArray()`) is abstracted as
`fft : List ℚ → List ℚ` from the windowed segment to the interleaved
complex spectrum. -/
def analyzeSpectrum (fft : List ℚ → List ℚ) (sqrtQ : ℚ → ℚ) (piQ : ℚ) (cosQ : ℚ → ℚ)
    (fftSize hopSize : Nat) (sampleRate : ℚ) (signal : List ℚ) : SpectrogramData :=
  let frequencies := generateFrequencyBins sampleRate fftSize
  let windowFunction := generateHammingWindow piQ cosQ fftSize
  let starts := frameStarts fftSize hopSize signal.length
  { frequencies := frequencies
    times := starts.map fun i => (Nat.cast i : ℚ) / sampleRate
    magnitudes := starts.map fun i =>
      calculateMagnitude sqrtQ fftSize (fft (windowedSegment signal windowFunction fftSize i)) }

/-- `AudioAnalyzer.calculateOverallFrequencySpectrum`'s inner loop:
`for (i = 0; i < magnitudeFrame.length && i < overallMagnitudes.length; i++)
overallMagnitudes[i] += magnitudeFrame[i]`. -/
def addInto : List ℚ → List ℚ → List ℚ
  | o :: os, f :: fs => (o + f) :: addInto os fs
  | overall, _ => overall

/-- `AudioAnalyzer.calculateOverallFrequencySpectrum`: accumulate every frame
into a zero-initialised array, then divide by the frame count if positive. -/
def calculateOverallFrequencySpectrum (S : SpectrogramData) : FrequencySpectrumData :=
  let overallMagnitudes := S.magnitudes.foldl addInto (List.replicate S.frequencies.length 0)
  let frameCount := S.magnitudes.length
  { frequencies := S.frequencies
    magnitudes :=
      if 0 < frameCount then overallMagnitudes.map fun m => m / (frameCount : ℚ)
      else overallMagnitudes }

/-- `Note` from `musicTheory.ts`. -/
structure Note where
  name : String
  octave : Int
  frequency : ℚ
  cents : Int
deriving DecidableEq

/-- Append the sharp sign to a pitch letter. -/
def sharpened (s : String) : String := s ++ "#"

/-- `MusicTheoryUtils.NOTE_NAMES`: the twelve chromatic note names
`C, C#, D, D#, E, F, F#, G, G#, A, A#, B` of the source, written here with
the sharps built by `sharpened`. -/
def NOTE_NAMES : List String :=
  ["C", sharpened "C", "D", sharpened "D", "E", "F", sharpened "F",
   "G", sharpened "G", "A", sharpened "A", "B"]

/-- `Math.round`: round half toward positive infinity. -/
def roundJS (x : ℚ) : Int := ⌊x + 1 / 2⌋

/-- `MusicTheoryUtils.frequencyToMidiNumber` with `Math.log2` abstracted. -/
def frequencyToMidiNumber (log2Q : ℚ → ℚ) (frequency : ℚ) : ℚ :=
  69 + 12 * log2Q (frequency / 440)

/-- `MusicTheoryUtils.midiNumberToFrequency` with `Math.pow(2, ·)` abstracted. -/
def midiNumberToFrequency (pow2Q : ℚ → ℚ) (midiNumber : ℚ) : ℚ :=
  440 * pow2Q ((midiNumber - 69) / 12)

/-- `MusicTheoryUtils.frequencyToNote`.  JavaScript `%` is the truncated
remainder (`Int.tmod`); `Math.floor` of a real quotient is `⌊·⌋`; indexing
`NOTE_NAMES` out of range yields `undefined`, modelled by the fallback
string `"undefined"`. -/
def frequencyToNote (log2Q pow2Q : ℚ → ℚ) (frequency : ℚ) : Note :=
  if frequency ≤ 0 then
    { name := "-", octave := 0, frequency := 0, cents := 0 }
  else
    let midiNumber := frequencyToMidiNumber log2Q frequency
    let roundedMidiNumber := roundJS midiNumber
    let noteIndex := (roundedMidiNumber - 12).tmod 12
    let octave := ⌊(((roundedMidiNumber - 12 : Int) : ℚ)) / 12⌋
    let exactFrequency := midiNumberToFrequency pow2Q (roundedMidiNumber : ℚ)
    let cents := roundJS (1200 * log2Q (frequency / exactFrequency))
    { name := (if 0 ≤ noteIndex then NOTE_NAMES[noteIndex.toNat]? else none).getD "undefined"
      octave := octave
      frequency := exactFrequency
      cents := cents }

/-- `AudioAnalyzer.findClosestFrequencyIndex`: linear scan tracking the index
of minimal `|frequencies[i] - targetFreq|` (strict improvement, so the first
of equally close bins wins); `-1`, i.e. `none`, only for an empty list
(`minDiff` starts at `Infinity`, which every finite difference beats). -/
def findClosestFrequencyIndex (targetFreq : ℚ) (frequencies : List ℚ) : Option Nat :=
  ((frequencies.foldl
      (fun (st : Option (Nat × ℚ) × Nat) f =>
        match st with
        | (none, i) => (some (i, |f - targetFreq|), i + 1)
        | (some (bi, bd), i) =>
          if |f - targetFreq| < bd then (some (i, |f - targetFreq|), i + 1)
          else (some (bi, bd), i + 1))
      (none, 0)).1).map Prod.fst

/-- One step of the harmonic loop in `AudioAnalyzer.calculateHarmonicStrength`:
add `magnitudes[closestIdx] * (1 / harmonic)` when the closest bin lies within
20 Hz of the target harmonic.  Reading `magnitudes[closestIdx]` past the end
of a short frame is modelled by `getD _ 0`. -/
def harmonicStep (fundamentalFreq : ℚ) (frequencies magnitudes : List ℚ)
    (totalStrength harmonic : ℚ) : ℚ :=
  let harmonicFreq := fundamentalFreq * harmonic
  match findClosestFrequencyIndex harmonicFreq frequencies with
  | some closestIdx =>
    if |frequencies.getD closestIdx 0 - harmonicFreq| < 20 then
      totalStrength + magnitudes.getD closestIdx 0 * (1 / harmonic)
    else totalStrength
  | none => totalStrength

/-- `AudioAnalyzer.calculateHarmonicStrength`: `totalStrength` starts at 1 and
accumulates over harmonics 2, 3, 4, 5. -/
def calculateHarmonicStrength (fundamentalFreq : ℚ) (frequencies magnitudes : List ℚ) : ℚ :=
  [(2 : ℚ), 3, 4, 5].foldl (harmonicStep fundamentalFreq frequencies magnitudes) 1

/-- `AudioAnalyzer.calculateConfidence` (the `_frequencies`, `_allMagnitudes`
and `_frameIndex` parameters are unused in the source and dropped here).
`Math.log10` is abstracted as `log10Q`.  `Math.floor(len * 0.8)` equals
`4 * len / 5` in natural-number arithmetic, and the divisor
`sortedMagnitudes.length * 0.2` is the exact rational `len / 5`. -/
def calculateConfidence (log10Q : ℚ → ℚ) (frequency magnitude harmonicStrength : ℚ)
    (magnitudes : List ℚ) (previousFreq : ℚ) : ℚ :=
  let totalEnergy := sumSquares magnitudes
  let signalEnergy := magnitude * magnitude
  let energyRatio := min (signalEnergy / totalEnergy) 0.25
  let energyConfidence := energyRatio * 4
  let harmonicConfidence := min ((harmonicStrength - 1) / 4) 0.25 * 4
  let temporalConfidence :=
    if 0 < previousFreq ∧ 0 < frequency then
      min (min frequency previousFreq / max frequency previousFreq) 0.25 * 4
    else (0.25 : ℚ)
  let sortedMagnitudes := sortDescQ magnitudes
  let noiseLevel := sumList (sortedMagnitudes.drop (4 * sortedMagnitudes.length / 5)) /
    ((sortedMagnitudes.length : ℚ) * 0.2)
  let snr := magnitude / (noiseLevel + 1e-10)
  let snrConfidence := min (log10Q (snr + 1) / 2) 0.25 * 4
  let totalConfidence :=
    (energyConfidence + harmonicConfidence + temporalConfidence + snrConfidence) / 4
  max 0 (min 1 totalConfidence)

/-- `AudioAnalyzer.estimateFundamentalFrequencyWithConfidence`.
`findIndex` returning `-1` is modelled by `none`; a frame read out of range
(`magnitudes[i]` on a short frame) yields `undefined > 0.1 = false` in the
source and `getD _ 0 > 0.1 = false` here.  The source checks
`candidateFrequencies.length === 0` before sorting and then takes element 0;
matching on the sorted list is equivalent. -/
def estimateFundamentalFrequencyWithConfidence (log10Q : ℚ → ℚ)
    (frequencies magnitudes : List ℚ) (previousFreq : ℚ) : ℚ × ℚ :=
  if magnitudes.length = 0 then (0, 0)
  else
    match frequencies.findIdx? (fun f => decide (80 ≤ f)),
        frequencies.findIdx? (fun f => decide (2000 ≤ f)) with
    | some startIdx, some endIdx =>
      let candidateFrequencies : List FreqCandidate :=
        (List.range' startIdx (endIdx - startIdx)).filterMap fun i =>
          let freq := frequencies.getD i 0
          let magnitude := magnitudes.getD i 0
          if 0.1 < magnitude then
            let harmonicStrength := calculateHarmonicStrength freq frequencies magnitudes
            some
              { freq := freq
                strength := magnitude * harmonicStrength
                confidence :=
                  calculateConfidence log10Q freq magnitude harmonicStrength magnitudes
                    previousFreq }
          else none
      match candidateFrequencies.insertionSort (fun a b => b.strength ≤ a.strength) with
      | [] => (0, 0)
      | best :: _ => (best.freq, best.confidence)
    | _, _ => (0, 0)

/-- The per-frame loop of `AudioAnalyzer.extractFundamentalFrequency`:
the previous frame's estimated frequency (`fundamentalFrequencies[i-1]`,
`0` for frame 0) is threaded through as an accumulator. -/
def extractAux (log10Q : ℚ → ℚ) (frequencies : List ℚ) : ℚ → List (List ℚ) → List (ℚ × ℚ)
  | _, [] => []
  | previousFreq, magnitudeFrame :: rest =>
    let result :=
      estimateFundamentalFrequencyWithConfidence log10Q frequencies magnitudeFrame previousFreq
    result :: extractAux log10Q frequencies result.1 rest

/-- `AudioAnalyzer.extractFundamentalFrequency`. -/
def extractFundamentalFrequency (log10Q : ℚ → ℚ) (S : SpectrogramData) :
    FundamentalFrequencyData :=
  let results := extractAux log10Q S.frequencies 0 S.magnitudes
  { times := S.times
    frequencies := results.map Prod.fst
    confidences := results.map Prod.snd }

/-- The peak test at index `i` inside `AudioAnalyzer.findPeaks`.  The loop
only runs for `i ≥ 1`; reading `magnitudes[-1]` or any index past the end
yields `undefined`, whose comparisons are all false, hence the `none` cases.
`magnitudes[i-2] || 0` and `magnitudes[i+2] || 0` map missing two-away
neighbors to `0`; `i - 2` is negative in the source when `i < 2`. -/
def isPeakAt (magnitudes : List ℚ) (minMagnitude : ℚ) (i : Nat) : Bool :=
  if i = 0 then false
  else
    match magnitudes[i]?, magnitudes[i - 1]?, magnitudes[i + 1]? with
    | some current, some prev, some next =>
      decide (prev < current) && decide (next < current) && decide (minMagnitude < current) &&
        (let leftNeighbor := if 2 ≤ i then (magnitudes[i - 2]?).getD 0 else 0
         let rightNeighbor := (magnitudes[i + 2]?).getD 0
         decide (leftNeighbor < current) && decide (rightNeighbor < current))
    | _, _, _ => false

/-- `AudioAnalyzer.findPeaks`: scan `i = startIdx + 1` while `i < endIdx - 1`,
pushing `{ index: i, magnitude: magnitudes[i] }` at each peak. -/
def findPeaks (magnitudes : List ℚ) (startIdx endIdx : Nat) (minMagnitude : ℚ) :
    List (Nat × ℚ) :=
  (List.range' (startIdx + 1) (endIdx - 1 - (startIdx + 1))).filterMap fun i =>
    if isPeakAt magnitudes minMagnitude i then some (i, (magnitudes[i]?).getD 0) else none

/-- `AudioAnalyzer.calculateMultiNoteConfidence` (unused `_frequency` and
`_frequencies` parameters dropped).  `Math.floor(len * 0.9)` equals
`9 * len / 10` in natural-number arithmetic. -/
def calculateMultiNoteConfidence (log10Q : ℚ → ℚ) (magnitude harmonicStrength : ℚ)
    (magnitudes : List ℚ) : ℚ :=
  let energyRatio := magnitude / (sumList magnitudes + 1e-10)
  let energyConfidence := min (energyRatio * 10) 0.4
  let harmonicConfidence := min ((harmonicStrength - 1) / 3) 0.3
  let sortedMagnitudes := sortDescQ magnitudes
  let noiseLevel := sumList (sortedMagnitudes.drop (9 * sortedMagnitudes.length / 10)) /
    ((sortedMagnitudes.length : ℚ) * 0.1)
  let snr := magnitude / (noiseLevel + 1e-10)
  let snrConfidence := min (log10Q (snr + 1) / 3) 0.3
  max 0 (min 1 (energyConfidence + harmonicConfidence + snrConfidence))

/-- The frequency ratio `max / min` used by
`AudioAnalyzer.filterOverlappingNotes`. -/
def noteRatio (a b : DetectedNote) : ℚ :=
  max a.frequency b.frequency / min a.frequency b.frequency

/-- The inner `j` loop of `AudioAnalyzer.filterOverlappingNotes`: skip
consumed indices; a peak within ratio 1.1 of `currentNote` is consumed, and
replaces the running best if it has strictly larger boosted magnitude. -/
def overlapInner (notes : List DetectedNote) (currentNote : DetectedNote) :
    DetectedNote × Nat × List Nat → Nat → DetectedNote × Nat × List Nat
  | (bestNote, bestIndex, used), j =>
    if j ∈ used then (bestNote, bestIndex, used)
    else
      let otherNote := notes.getD j ⟨0, 0, 0⟩
      if noteRatio currentNote otherNote < 1.1 then
        if bestNote.magnitude < otherNote.magnitude then (otherNote, j, j :: used)
        else (bestNote, bestIndex, j :: used)
      else (bestNote, bestIndex, used)

/-- The outer `i` loop of `AudioAnalyzer.filterOverlappingNotes`: skip
consumed indices, scan the later indices for the group of `notes[i]`, push
the group's best note and mark its index consumed. -/
def overlapOuter (notes : List DetectedNote) :
    List DetectedNote × List Nat → Nat → List DetectedNote × List Nat
  | (filtered, used), i =>
    if i ∈ used then (filtered, used)
    else
      let currentNote := notes.getD i ⟨0, 0, 0⟩
      let scanned := (List.range' (i + 1) (notes.length - (i + 1))).foldl
        (overlapInner notes currentNote) (currentNote, i, used)
      (filtered ++ [scanned.1], scanned.2.1 :: scanned.2.2)

/-- `AudioAnalyzer.filterOverlappingNotes`. -/
def filterOverlappingNotes (notes : List DetectedNote) : List DetectedNote :=
  if notes.length ≤ 1 then notes
  else ((List.range notes.length).foldl (overlapOuter notes) ([], [])).1

/-- `AudioAnalyzer.detectMultipleNotesInFrame`. -/
def detectMultipleNotesInFrame (log10Q : ℚ → ℚ) (frequencies magnitudes : List ℚ)
    (maxNotes : Nat) : List DetectedNote :=
  match frequencies.findIdx? (fun f => decide (80 ≤ f)),
      frequencies.findIdx? (fun f => decide (2000 ≤ f)) with
  | some startIdx, some endIdx =>
    let peaks := findPeaks magnitudes startIdx endIdx 0.05
    let candidateNotes : List DetectedNote := peaks.filterMap fun peak =>
      let frequency := frequencies.getD peak.1 0
      let magnitude := peak.2
      let harmonicStrength := calculateHarmonicStrength frequency frequencies magnitudes
      let confidence := calculateMultiNoteConfidence log10Q magnitude harmonicStrength magnitudes
      if 0.1 < confidence then
        some { frequency := frequency, confidence := confidence,
               magnitude := magnitude * harmonicStrength }
      else none
    let sorted := candidateNotes.insertionSort (fun a b => b.magnitude ≤ a.magnitude)
    (filterOverlappingNotes sorted).take maxNotes
  | _, _ => []

/-- `AudioAnalyzer.extractMultipleNotes`.  `times[i]` on a well-formed
spectrogram is always in range; `getD _ 0` models the read. -/
def extractMultipleNotes (log10Q : ℚ → ℚ) (S : SpectrogramData) (maxNotes : Nat) :
    MultipleNotesData :=
  let noteFrames := (List.range S.magnitudes.length).map fun i =>
    { time := S.times.getD i 0
      notes :=
        detectMultipleNotesInFrame log10Q S.frequencies (S.magnitudes.getD i []) maxNotes :
      NoteFrame }
  { times := S.times, noteFrames := noteFrames }

/-! ### Helper lemmas -/

theorem foldl_add_shift (x : ℚ) (l : List ℚ) :
    l.foldl (fun sum mag => sum + mag) x = x + l.foldl (fun sum mag => sum + mag) 0 := by
  induction l generalizing x with
  | nil => simp
  | cons a l ih => simp only [List.foldl]; rw [ih (x + a), ih (0 + a)]; ring

theorem sumList_nil : sumList [] = 0 := rfl

theorem sumList_cons (a : ℚ) (l : List ℚ) : sumList (a :: l) = a + sumList l := by
  unfold sumList
  simp only [List.foldl]
  rw [foldl_add_shift (0 + a)]
  ring_nf

theorem sumList_nonneg (l : List ℚ) (h : ∀ x ∈ l, 0 ≤ x) : 0 ≤ sumList l := by
  induction l with
  | nil => simp [sumList_nil]
  | cons a l ih =>
    rw [sumList_cons]
    have ha := h a (by simp)
    have := ih fun x hx => h x (by simp [hx])
    linarith

theorem addInto_length (o f : List ℚ) : (addInto o f).length = o.length := by
  induction o generalizing f with
  | nil => cases f <;> simp [addInto]
  | cons a o ih => cases f <;> simp [addInto, ih]

theorem addInto_getD (o f : List ℚ) (i : Nat) (hi : i < o.length) :
    (addInto o f).getD i 0 = o.getD i 0 + f.getD i 0 := by
  induction o generalizing f i with
  | nil => simp at hi
  | cons a o ih =>
    cases f with
    | nil => cases i <;> simp [addInto]
    | cons b f =>
      cases i with
      | zero => simp [addInto]
      | succ i => simpa [addInto] using ih f i (by simpa using hi)

/-- The total magnitude of bin `i` across all frames (out-of-range reads
count as `0`, exactly as the accumulation loop skips them). -/
def binSum (frames : List (List ℚ)) (i : Nat) : ℚ :=
  sumList (frames.map fun fr => fr.getD i 0)

theorem foldl_addInto_length (frames : List (List ℚ)) (acc : List ℚ) :
    (frames.foldl addInto acc).length = acc.length := by
  induction frames generalizing acc with
  | nil => rfl
  | cons fr frames ih => simp [List.foldl, ih, addInto_length]

theorem foldl_addInto_getD (frames : List (List ℚ)) (acc : List ℚ) (i : Nat)
    (hi : i < acc.length) :
    (frames.foldl addInto acc).getD i 0 = acc.getD i 0 + binSum frames i := by
  induction frames generalizing acc with
  | nil => simp [binSum, sumList_nil]
  | cons fr frames ih =>
    have h1 : i < (addInto acc fr).length := by rwa [addInto_length]
    simp only [List.foldl]
    rw [ih (addInto acc fr) h1, addInto_getD acc fr i hi]
    simp only [binSum, List.map_cons, sumList_cons]
    ring

theorem binSum_const (frames : List (List ℚ)) (m : List ℚ) (i : Nat)
    (h : ∀ fr ∈ frames, fr = m) :
    binSum frames i = (frames.length : ℚ) * m.getD i 0 := by
  induction frames with
  | nil => simp [binSum, sumList_nil]
  | cons fr frames ih =>
    have hfr : fr = m := h fr (by simp)
    have hrest := ih fun fr hfr => h fr (by simp [hfr])
    simp only [binSum, List.map_cons, sumList_cons] at *
    rw [hrest, hfr, List.length_cons]
    push_cast
    ring

/-! ### C8: spectral aggregation is a per-bin time average -/

/-- C8. `calculateOverallFrequencySpectrum` returns, per frequency bin, the
across-frame sum of that bin's magnitude divided by the frame count; with no
frames the result is the all-zero array; consequently a spectrogram of
`N ≥ 1` identical (well-formed) frames aggregates to that frame itself. -/
theorem calculateOverallFrequencySpectrum_average (S : SpectrogramData) :
    (calculateOverallFrequencySpectrum S).magnitudes.length = S.frequencies.length
    ∧ (S.magnitudes = [] →
        (calculateOverallFrequencySpectrum S).magnitudes
          = List.replicate S.frequencies.length 0)
    ∧ (∀ i, i < S.frequencies.length → S.magnitudes ≠ [] →
        (calculateOverallFrequencySpectrum S).magnitudes.getD i 0
          = binSum S.magnitudes i / (S.magnitudes.length : ℚ))
    ∧ (∀ m, S.magnitudes ≠ [] → (∀ fr ∈ S.magnitudes, fr = m) →
        m.length = S.frequencies.length →
        (calculateOverallFrequencySpectrum S).magnitudes = m) := by
  have hacc : (S.magnitudes.foldl addInto (List.replicate S.frequencies.length 0)).length
      = S.frequencies.length := by
    rw [foldl_addInto_length, List.length_replicate]
  have hlen : (calculateOverallFrequencySpectrum S).magnitudes.length
      = S.frequencies.length := by
    unfold calculateOverallFrequencySpectrum
    by_cases h : 0 < S.magnitudes.length <;> simp [h, hacc]
  have hgetD : ∀ i, i < S.frequencies.length → S.magnitudes ≠ [] →
      (calculateOverallFrequencySpectrum S).magnitudes.getD i 0
        = binSum S.magnitudes i / (S.magnitudes.length : ℚ) := by
    intro i hi hne
    have hpos : 0 < S.magnitudes.length := List.length_pos.mpr hne
    have hi' : i < (List.replicate S.frequencies.length (0 : ℚ)).length := by simpa using hi
    have hsum := foldl_addInto_getD S.magnitudes (List.replicate S.frequencies.length 0) i hi'
    have hrep : (List.replicate S.frequencies.length (0 : ℚ)).getD i 0 = 0 := by
      rw [List.getD_eq_getElem _ _ hi']
      simp
    unfold calculateOverallFrequencySpectrum
    simp only [hpos, if_pos]
    have hi2 : i < (S.magnitudes.foldl addInto
        (List.replicate S.frequencies.length 0)).length := by rwa [hacc]
    rw [List.getD_eq_getElem _ _ (by simpa using hi2), List.getElem_map,
      ← List.getD_eq_getElem _ (0 : ℚ) hi2, hsum, hrep]
    ring
  refine ⟨hlen, ?_, hgetD, ?_⟩
  · intro h
    unfold calculateOverallFrequencySpectrum
    simp [h]
  · intro m hne hall hm
    have hpos : 0 < S.magnitudes.length := List.length_pos.mpr hne
    have hcast : ((S.magnitudes.length : ℚ)) ≠ 0 := by positivity
    apply List.ext_getElem (by rw [hlen, hm])
    intro i hi1 hi2
    have hif : i < S.frequencies.length := by rwa [hlen] at hi1
    rw [← List.getD_eq_getElem _ (0 : ℚ) hi1, ← List.getD_eq_getElem _ (0 : ℚ) hi2,
      hgetD i hif hne, binSum_const S.magnitudes m i hall]
    field_simp

/-! ### C10: non-positive frequencies map to the sentinel note -/

/-- C10. For every frequency `≤ 0`, `MusicTheoryUtils.frequencyToNote` returns
the sentinel note `{name: "-", octave: 0, frequency: 0, cents: 0}` without
consulting the logarithm. -/
theorem frequencyToNote_nonpositive (log2Q pow2Q : ℚ → ℚ) (frequency : ℚ)
    (h : frequency ≤ 0) :
    frequencyToNote log2Q pow2Q frequency
      = { name := "-", octave := 0, frequency := 0, cents := 0 } := by
  unfold frequencyToNote
  rw [if_pos h]

/-- Witness for C10 at the concrete input `-1`. -/
theorem frequencyToNote_nonpositive_witness :
    (-1 : ℚ) ≤ 0
    ∧ frequencyToNote id id (-1)
        = { name := "-", octave := 0, frequency := 0, cents := 0 } :=
  ⟨by norm_num, frequencyToNote_nonpositive id id (-1) (by norm_num)⟩

/-! ### C1: framing invariant -/

/-- Number of loop iterations of the framing loop when started at index `i`. -/
def frameCountFrom (N h L i : Nat) : Nat :=
  if i + N ≤ L then (L - i - N) / h + 1 else 0

/-- The frame count stated by the specification:
`⌊(L − N)/h⌋ + 1` when `L ≥ N`, else `0`. -/
def numFrames (N h L : Nat) : Nat :=
  if N ≤ L then (L - N) / h + 1 else 0

theorem frameStartsAux_succ (N h L fuel i : Nat) :
    frameStartsAux N h L (fuel + 1) i
      = if i + N ≤ L then i :: frameStartsAux N h L fuel (i + h) else [] := rfl

theorem frameStartsAux_eq (N h L : Nat) (hh : 0 < h) :
    ∀ fuel i, frameCountFrom N h L i < fuel →
      frameStartsAux N h L fuel i
        = (List.range (frameCountFrom N h L i)).map fun k => i + k * h := by
  intro fuel
  induction fuel with
  | zero => intro i hi; omega
  | succ fuel ih =>
    intro i hi
    by_cases hc : i + N ≤ L
    · have hcount : frameCountFrom N h L i = (L - i - N) / h + 1 := by
        unfold frameCountFrom; rw [if_pos hc]
      rw [hcount] at hi ⊢
      rw [frameStartsAux_succ, if_pos hc]
      by_cases hc2 : i + h + N ≤ L
      · have hcount2 : frameCountFrom N h L (i + h) = (L - (i + h) - N) / h + 1 := by
          unfold frameCountFrom; rw [if_pos hc2]
        have hdiv : (L - i - N) / h = (L - (i + h) - N) / h + 1 := by
          have hle : h ≤ L - i - N := by omega
          have hsub := Nat.div_eq_sub_div hh hle
          have harg : L - i - N - h = L - (i + h) - N := by omega
          rw [hsub, harg]
        have hlt2 : frameCountFrom N h L (i + h) < fuel := by
          rw [hcount2]; omega
        rw [ih (i + h) hlt2, hcount2, hdiv]
        conv_rhs => rw [List.range_succ_eq_map, List.map_cons, List.map_map]
        congr 1
        · simp
        · apply List.map_congr_left
          intro a _
          simp only [Function.comp_apply, Nat.succ_eq_add_one]
          ring
      · have hdiv0 : (L - i - N) / h = 0 := Nat.div_eq_of_lt (by omega)
        have hcount2 : frameCountFrom N h L (i + h) = 0 := by
          unfold frameCountFrom; rw [if_neg (by omega)]
        have hlt2 : frameCountFrom N h L (i + h) < fuel := by rw [hcount2]; omega
        rw [ih (i + h) hlt2, hcount2, hdiv0]
        simp [List.range_succ]
    · have hcount : frameCountFrom N h L i = 0 := by
        unfold frameCountFrom; rw [if_neg hc]
      rw [hcount, frameStartsAux_succ, if_neg hc]
      simp

theorem frameStarts_eq (N h L : Nat) (hh : 0 < h) :
    frameStarts N h L = (List.range (numFrames N h L)).map fun k => k * h := by
  have hcount : frameCountFrom N h L 0 = numFrames N h L := by
    unfold frameCountFrom numFrames
    by_cases hc : N ≤ L
    · rw [if_pos (by omega : 0 + N ≤ L), if_pos hc]
      simp
    · rw [if_neg (by omega : ¬ 0 + N ≤ L), if_neg hc]
  have hfuel : frameCountFrom N h L 0 < L + 2 := by
    unfold frameCountFrom
    by_cases hc : 0 + N ≤ L
    · rw [if_pos hc]
      have := Nat.div_le_self (L - 0 - N) h
      omega
    · rw [if_neg hc]; omega
  unfold frameStarts
  rw [frameStartsAux_eq N h L hh (L + 2) 0 hfuel, hcount]
  apply List.map_congr_left
  intro a _
  omega

theorem numFrames_length (N h L : Nat) :
    (L < N → numFrames N h L = 0) ∧ (N ≤ L → numFrames N h L = (L - N) / h + 1) := by
  unfold numFrames
  constructor
  · intro hL; rw [if_neg (by omega)]
  · intro hL; rw [if_pos hL]

/-- C1. With hop size `h ≥ 1`, `analyzeSpectrum` produces exactly
`⌊(L − N)/h⌋ + 1` frames when the signal length `L ≥ N` and zero frames
when `L < N`; frame `k` starts at time `k·h / sampleRate` and is the
magnitude spectrum of the transform of the windowed samples
`[k·h, k·h + N)`; trailing samples shorter than `N` contribute no frame. -/
theorem analyzeSpectrum_framing (fft : List ℚ → List ℚ) (sqrtQ : ℚ → ℚ) (piQ : ℚ)
    (cosQ : ℚ → ℚ) (N h : Nat) (sr : ℚ) (signal : List ℚ) (hh : 1 ≤ h) :
    (analyzeSpectrum fft sqrtQ piQ cosQ N h sr signal).times.length
      = numFrames N h signal.length
    ∧ (analyzeSpectrum fft sqrtQ piQ cosQ N h sr signal).magnitudes.length
      = numFrames N h signal.length
    ∧ (signal.length < N → numFrames N h signal.length = 0)
    ∧ (N ≤ signal.length →
        numFrames N h signal.length = (signal.length - N) / h + 1)
    ∧ (∀ k, k < numFrames N h signal.length →
        (analyzeSpectrum fft sqrtQ piQ cosQ N h sr signal).times.getD k 0
          = ((k * h : Nat) : ℚ) / sr
        ∧ (analyzeSpectrum fft sqrtQ piQ cosQ N h sr signal).magnitudes.getD k []
          = calculateMagnitude sqrtQ N
              (fft (windowedSegment signal (generateHammingWindow piQ cosQ N) N (k * h)))) := by
  have hst := frameStarts_eq N h signal.length (by omega)
  have hlen : (frameStarts N h signal.length).length = numFrames N h signal.length := by
    rw [hst]; simp
  have htimes : (analyzeSpectrum fft sqrtQ piQ cosQ N h sr signal).times
      = (frameStarts N h signal.length).map fun i => (Nat.cast i : ℚ) / sr := rfl
  have hmags : (analyzeSpectrum fft sqrtQ piQ cosQ N h sr signal).magnitudes
      = (frameStarts N h signal.length).map fun i =>
          calculateMagnitude sqrtQ N
            (fft (windowedSegment signal (generateHammingWindow piQ cosQ N) N i)) := rfl
  refine ⟨?_, ?_, (numFrames_length N h signal.length).1,
    (numFrames_length N h signal.length).2, ?_⟩
  · rw [htimes, List.length_map, hlen]
  · rw [hmags, List.length_map, hlen]
  · intro k hk
    have hk1 : k < (frameStarts N h signal.length).length := by rwa [hlen]
    have hsk : (frameStarts N h signal.length)[k] = k * h := by
      simp only [hst]
      rw [List.getElem_map, List.getElem_range]
    constructor
    · rw [htimes, List.getD_eq_getElem _ _ (by simpa using hk1), List.getElem_map, hsk]
    · rw [hmags, List.getD_eq_getElem _ _ (by simpa using hk1), List.getElem_map, hsk]

/-- Witness for C1: transform size 2, hop 1, a 3-sample signal gives
`⌊(3 − 2)/1⌋ + 1 = 2` frames. -/
theorem analyzeSpectrum_framing_witness :
    (1 : Nat) ≤ 1
    ∧ (analyzeSpectrum id id 0 (fun x => x) 2 1 1 [1, 2, 3]).times.length
        = numFrames 2 1 ([1, 2, 3] : List ℚ).length :=
  ⟨le_refl 1, (analyzeSpectrum_framing id id 0 (fun x => x) 2 1 1 [1, 2, 3] (le_refl 1)).1⟩

/-- Witness for C8 at a concrete two-frame spectrogram. -/
theorem calculateOverallFrequencySpectrum_average_witness :
    ((0 : Nat) < 2)
    ∧ (([[3, 4], [5, 6]] : List (List ℚ)) ≠ [])
    ∧ (calculateOverallFrequencySpectrum
          { frequencies := [0, 2], times := [0, 1], magnitudes := [[3, 4], [5, 6]] }).magnitudes.getD 0 0
        = binSum [[3, 4], [5, 6]] 0 / ((2 : Nat) : ℚ) :=
  ⟨by decide, by simp,
    (calculateOverallFrequencySpectrum_average
      { frequencies := [0, 2], times := [0, 1], magnitudes := [[3, 4], [5, 6]] }).2.2.1 0
      (by decide) (by simp)⟩

/-! ### Helper lemmas about the estimators -/

theorem getD_zero_of_all_zero (l : List ℚ) (i : Nat) (h : ∀ x ∈ l, x = 0) :
    l.getD i 0 = 0 := by
  by_cases hi : i < l.length
  · rw [List.getD_eq_getElem _ _ hi]
    exact h _ (l.getElem_mem hi)
  · rw [List.getD_eq_default _ _ (by omega)]

theorem findIdx?_spec (p : ℚ → Bool) (l : List ℚ) (i : Nat) (h : l.findIdx? p = some i) :
    i < l.length ∧ p (l.getD i 0) = true ∧ ∀ j, j < i → p (l.getD j 0) = false := by
  rw [List.findIdx?_eq_some_iff_findIdx_eq] at h
  obtain ⟨hlen, hfi⟩ := h
  subst hfi
  refine ⟨hlen, ?_, ?_⟩
  · rw [List.getD_eq_getElem _ _ hlen]
    exact List.findIdx_getElem
  · intro j hj
    rw [List.getD_eq_getElem _ _ (by omega)]
    exact List.not_of_lt_findIdx hj

/-- On a frame with no candidate above the `0.1` magnitude floor inside the
index band `[startIdx, endIdx)`, the single-pitch estimator returns `(0, 0)`.
The band is characterised here by frequency value, which matches the code's
index band because `frequencies` is sorted. -/
theorem estimate_band_quiet (log10Q : ℚ → ℚ) (freqs mags : List ℚ) (prev : ℚ)
    (hsorted : freqs.Sorted (· ≤ ·))
    (hq : ∀ j, j < freqs.length → 80 ≤ freqs.getD j 0 → freqs.getD j 0 < 2000 →
      ¬ (0.1 < mags.getD j 0)) :
    estimateFundamentalFrequencyWithConfidence log10Q freqs mags prev = (0, 0) := by
  unfold estimateFundamentalFrequencyWithConfidence
  by_cases hm : mags.length = 0
  · rw [if_pos hm]
  · rw [if_neg hm]
    rcases h80 : freqs.findIdx? (fun f => decide (80 ≤ f)) with _ | s
    · simp
    rcases h2000 : freqs.findIdx? (fun f => decide (2000 ≤ f)) with _ | e
    · simp
    obtain ⟨hs_lt, hs_p, _⟩ := findIdx?_spec _ _ _ h80
    obtain ⟨he_lt, _, he_min⟩ := findIdx?_spec _ _ _ h2000
    have hs80 : 80 ≤ freqs.getD s 0 := by simpa using hs_p
    have hcand : (List.range' s (e - s)).filterMap (fun i =>
        let freq := freqs.getD i 0
        let magnitude := mags.getD i 0
        if 0.1 < magnitude then
          let harmonicStrength := calculateHarmonicStrength freq freqs mags
          some
            { freq := freq
              strength := magnitude * harmonicStrength
              confidence :=
                calculateConfidence log10Q freq magnitude harmonicStrength mags prev }
        else none) = ([] : List FreqCandidate) := by
      apply List.filterMap_eq_nil_iff.mpr
      intro i hi
      rw [List.mem_range'_1] at hi
      have hie : i < e := by omega
      have hif : i < freqs.length := by omega
      have hlow : 80 ≤ freqs.getD i 0 := by
        calc (80 : ℚ) ≤ freqs.getD s 0 := hs80
        _ ≤ freqs.getD i 0 := by
            rw [List.getD_eq_getElem _ _ hs_lt, List.getD_eq_getElem _ _ hif]
            rcases Nat.lt_or_ge s i with hlt | hge
            · exact List.pairwise_iff_getElem.mp hsorted s i hs_lt hif hlt
            · have hsi : s = i := by omega
              subst hsi; rfl
      have hhigh : freqs.getD i 0 < 2000 := by
        have := he_min i hie
        simpa using this
      have := hq i hif hlow hhigh
      simp only [this, if_false]
    simp only [hcand]
    rfl

/-- On an all-zero frame the single-pitch estimator returns `(0, 0)` for any
bin layout and any previous frequency. -/
theorem estimate_zero_mags (log10Q : ℚ → ℚ) (freqs mags : List ℚ) (prev : ℚ)
    (hz : ∀ x ∈ mags, x = 0) :
    estimateFundamentalFrequencyWithConfidence log10Q freqs mags prev = (0, 0) := by
  unfold estimateFundamentalFrequencyWithConfidence
  by_cases hm : mags.length = 0
  · rw [if_pos hm]
  · rw [if_neg hm]
    rcases h80 : freqs.findIdx? (fun f => decide (80 ≤ f)) with _ | s
    · simp
    rcases h2000 : freqs.findIdx? (fun f => decide (2000 ≤ f)) with _ | e
    · simp
    have hcand : (List.range' s (e - s)).filterMap (fun i =>
        let freq := freqs.getD i 0
        let magnitude := mags.getD i 0
        if 0.1 < magnitude then
          let harmonicStrength := calculateHarmonicStrength freq freqs mags
          some
            { freq := freq
              strength := magnitude * harmonicStrength
              confidence :=
                calculateConfidence log10Q freq magnitude harmonicStrength mags prev }
        else none) = ([] : List FreqCandidate) := by
      apply List.filterMap_eq_nil_iff.mpr
      intro i _
      have h0 : mags.getD i 0 = 0 := getD_zero_of_all_zero mags i hz
      have : ¬ ((0.1 : ℚ) < mags.getD i 0) := by rw [h0]; norm_num
      simp only [this, if_false]
    simp only [hcand]
    rfl

/-- When no frequency bin reaches 2000 Hz, the upper-edge search fails and
the single-pitch estimator returns `(0, 0)` regardless of the magnitudes. -/
theorem estimate_no_upper_edge (log10Q : ℚ → ℚ) (freqs mags : List ℚ) (prev : ℚ)
    (hf : ∀ f ∈ freqs, f < 2000) :
    estimateFundamentalFrequencyWithConfidence log10Q freqs mags prev = (0, 0) := by
  have hnone : freqs.findIdx? (fun f => decide (2000 ≤ f)) = none := by
    apply List.findIdx?_eq_none_iff.mpr
    intro x hx
    have := hf x hx
    simp only [decide_eq_false_iff_not, not_le]
    exact this
  unfold estimateFundamentalFrequencyWithConfidence
  by_cases hm : mags.length = 0
  · rw [if_pos hm]
  · rw [if_neg hm]
    rcases h80 : freqs.findIdx? (fun f => decide (80 ≤ f)) with _ | s <;> simp [hnone]

/-- `isPeakAt` is false on an all-zero frame (the `0.05` floor fails). -/
theorem isPeakAt_zero_mags (mags : List ℚ) (i : Nat) (hz : ∀ x ∈ mags, x = 0) :
    isPeakAt mags 0.05 i = false := by
  unfold isPeakAt
  by_cases hi : i = 0
  · rw [if_pos hi]
  · rw [if_neg hi]
    rcases hcur : mags[i]? with _ | current
    · rfl
    rcases hprev : mags[i - 1]? with _ | prev
    · rfl
    rcases hnext : mags[i + 1]? with _ | next
    · rfl
    have hc0 : current = 0 := hz current (List.getElem?_mem hcur)
    have : decide ((0.05 : ℚ) < current) = false := by
      subst hc0
      norm_num
    simp [this]

/-- The multi-pitch detector returns no notes on an all-zero frame. -/
theorem detect_zero_mags (log10Q : ℚ → ℚ) (freqs mags : List ℚ) (maxNotes : Nat)
    (hz : ∀ x ∈ mags, x = 0) :
    detectMultipleNotesInFrame log10Q freqs mags maxNotes = [] := by
  unfold detectMultipleNotesInFrame
  rcases h80 : freqs.findIdx? (fun f => decide (80 ≤ f)) with _ | s
  · simp
  rcases h2000 : freqs.findIdx? (fun f => decide (2000 ≤ f)) with _ | e
  · simp
  have hpeaks : findPeaks mags s e 0.05 = [] := by
    unfold findPeaks
    apply List.filterMap_eq_nil_iff.mpr
    intro i _
    rw [isPeakAt_zero_mags mags i hz]
    rfl
  simp [hpeaks, filterOverlappingNotes]

theorem extractAux_length (log10Q : ℚ → ℚ) (freqs : List ℚ) :
    ∀ (frames : List (List ℚ)) (prev : ℚ),
      (extractAux log10Q freqs prev frames).length = frames.length := by
  intro frames
  induction frames with
  | nil => intro prev; rfl
  | cons fr rest ih => intro prev; simp [extractAux, ih]

theorem extractAux_getD (log10Q : ℚ → ℚ) (freqs : List ℚ) :
    ∀ (frames : List (List ℚ)) (prev : ℚ) (i : Nat), i < frames.length →
      (extractAux log10Q freqs prev frames).getD i (0, 0)
        = estimateFundamentalFrequencyWithConfidence log10Q freqs (frames.getD i [])
            (if i = 0 then prev
             else ((extractAux log10Q freqs prev frames).getD (i - 1) (0, 0)).1) := by
  intro frames
  induction frames with
  | nil => intro prev i hi; simp at hi
  | cons fr rest ih =>
    intro prev i hi
    cases i with
    | zero => simp [extractAux]
    | succ k =>
      have hk : k < rest.length := by simpa using hi
      have hstep : extractAux log10Q freqs prev (fr :: rest)
          = estimateFundamentalFrequencyWithConfidence log10Q freqs fr prev ::
            extractAux log10Q freqs
              (estimateFundamentalFrequencyWithConfidence log10Q freqs fr prev).1 rest := rfl
      rw [hstep]
      cases k with
      | zero =>
        simpa using ih (estimateFundamentalFrequencyWithConfidence log10Q freqs fr prev).1 0 hk
      | succ m =>
        have hm : (m + 1) - 1 = m := by omega
        have := ih (estimateFundamentalFrequencyWithConfidence log10Q freqs fr prev).1 (m + 1) hk
        simpa [hm] using this

theorem extractAux_all_zero (log10Q : ℚ → ℚ) (freqs : List ℚ) :
    ∀ (frames : List (List ℚ)) (prev : ℚ),
      (∀ fr ∈ frames, ∀ p : ℚ,
        estimateFundamentalFrequencyWithConfidence log10Q freqs fr p = (0, 0)) →
      ∀ r ∈ extractAux log10Q freqs prev frames, r = (0, 0) := by
  intro frames
  induction frames with
  | nil => intro prev _ r hr; simp [extractAux] at hr
  | cons fr rest ih =>
    intro prev hall r hr
    simp only [extractAux, List.mem_cons] at hr
    rcases hr with hr | hr
    · rw [hr]; exact hall fr (by simp) prev
    · exact ih _ (fun fr2 h2 p => hall fr2 (by simp [h2]) p) r hr

theorem getD_map_fst (l : List (ℚ × ℚ)) (i : Nat) :
    (l.map Prod.fst).getD i 0 = (l.getD i (0, 0)).1 := by
  by_cases hi : i < l.length
  · rw [List.getD_eq_getElem _ _ (by simpa using hi), List.getD_eq_getElem _ _ hi,
      List.getElem_map]
  · rw [List.getD_eq_default _ _ (by simpa using hi), List.getD_eq_default _ _ (by omega)]

theorem getD_map_snd (l : List (ℚ × ℚ)) (i : Nat) :
    (l.map Prod.snd).getD i 0 = (l.getD i (0, 0)).2 := by
  by_cases hi : i < l.length
  · rw [List.getD_eq_getElem _ _ (by simpa using hi), List.getD_eq_getElem _ _ hi,
      List.getElem_map]
  · rw [List.getD_eq_default _ _ (by simpa using hi), List.getD_eq_default _ _ (by omega)]

/-! ### C9: a spectrogram with all bins below 2000 Hz yields no pitch -/

/-- C9. If every frequency bin lies below 2000 Hz, the upper band-edge
search fails, so every frame's fundamental is reported as `0` with
confidence `0` and every multi-pitch note list is empty, regardless of the
magnitudes. -/
theorem no_upper_band_edge_yields_zero (log10Q : ℚ → ℚ) (S : SpectrogramData)
    (maxNotes : Nat) (hf : ∀ f ∈ S.frequencies, f < 2000) :
    (∀ i : Nat,
      (extractFundamentalFrequency log10Q S).frequencies.getD i 0 = 0
      ∧ (extractFundamentalFrequency log10Q S).confidences.getD i 0 = 0)
    ∧ ∀ nf ∈ (extractMultipleNotes log10Q S maxNotes).noteFrames, nf.notes = [] := by
  have hall : ∀ r ∈ extractAux log10Q S.frequencies 0 S.magnitudes, r = (0, 0) :=
    extractAux_all_zero log10Q S.frequencies S.magnitudes 0
      (fun fr _ p => estimate_no_upper_edge log10Q S.frequencies fr p hf)
  constructor
  · intro i
    have hres : (extractAux log10Q S.frequencies 0 S.magnitudes).getD i (0, 0) = (0, 0) := by
      by_cases hi : i < (extractAux log10Q S.frequencies 0 S.magnitudes).length
      · rw [List.getD_eq_getElem _ _ hi]
        exact hall _ (List.getElem_mem hi)
      · rw [List.getD_eq_default _ _ (by omega)]
    constructor
    · show ((extractAux log10Q S.frequencies 0 S.magnitudes).map Prod.fst).getD i 0 = 0
      rw [getD_map_fst, hres]
    · show ((extractAux log10Q S.frequencies 0 S.magnitudes).map Prod.snd).getD i 0 = 0
      rw [getD_map_snd, hres]
  · intro nf hnf
    have : nf ∈ (List.range S.magnitudes.length).map fun i =>
        ({ time := S.times.getD i 0
           notes := detectMultipleNotesInFrame log10Q S.frequencies
             (S.magnitudes.getD i []) maxNotes } : NoteFrame) := hnf
    rw [List.mem_map] at this
    obtain ⟨i, _, hi⟩ := this
    rw [← hi]
    show detectMultipleNotesInFrame log10Q S.frequencies (S.magnitudes.getD i []) maxNotes = []
    unfold detectMultipleNotesInFrame
    have hnone : S.frequencies.findIdx? (fun f => decide (2000 ≤ f)) = none := by
      apply List.findIdx?_eq_none_iff.mpr
      intro x hx
      have := hf x hx
      simp only [decide_eq_false_iff_not, not_le]
      exact this
    rcases h80 : S.frequencies.findIdx? (fun f => decide (80 ≤ f)) with _ | s <;> simp [hnone]

/-- Witness for C9: a spectrogram whose bins stop at 1000 Hz. -/
theorem no_upper_band_edge_yields_zero_witness :
    (∀ f ∈ ([0, 500, 1000] : List ℚ), f < 2000)
    ∧ (extractFundamentalFrequency id
        { frequencies := [0, 500, 1000], times := [0], magnitudes := [[5, 5, 5]] }).frequencies.getD 0 0
      = 0 :=
  ⟨by norm_num,
    ((no_upper_band_edge_yields_zero id
      { frequencies := [0, 500, 1000], times := [0], magnitudes := [[5, 5, 5]] } 5
      (by norm_num)).1 0).1⟩

/-! ### C7: quiet bands and all-zero signals yield no pitch -/

theorem map_eq_replicate_zero {α : Type} (l : List α) (f : α → ℚ)
    (h : ∀ a ∈ l, f a = 0) : l.map f = List.replicate l.length 0 := by
  induction l with
  | nil => rfl
  | cons a l ih =>
    simp only [List.map_cons, List.length_cons, List.replicate_succ]
    rw [h a (by simp), ih fun b hb => h b (by simp [hb])]

theorem windowedSegment_zero (signal window : List ℚ) (N start : Nat)
    (hz : ∀ x ∈ signal, x = 0) :
    windowedSegment signal window N start = List.replicate N 0 := by
  unfold windowedSegment
  have hmap : ∀ j ∈ List.range N, signal.getD (start + j) 0 * window.getD j 0 = 0 := by
    intro j _
    rw [getD_zero_of_all_zero signal _ hz, zero_mul]
  rw [map_eq_replicate_zero _ _ hmap, List.length_range]

theorem calcMagAux_all_zero (sqrtQ : ℚ → ℚ) (hs : sqrtQ 0 = 0) :
    ∀ l : List ℚ, (∀ x ∈ l, x = 0) → ∀ y ∈ calcMagAux sqrtQ l, y = 0
  | [], _, y, hy => by simp [calcMagAux] at hy
  | [r], _, y, hy => by simp [calcMagAux] at hy
  | r :: i :: rest, hz, y, hy => by
    simp only [calcMagAux, List.mem_cons] at hy
    rcases hy with hy | hy
    · have hr : r = 0 := hz r (by simp)
      have hi : i = 0 := hz i (by simp)
      rw [hy, hr, hi]
      simpa using hs
    · exact calcMagAux_all_zero sqrtQ hs rest (fun x hx => hz x (by simp [hx])) y hy

theorem analyzeSpectrum_zero_frames (fft : List ℚ → List ℚ) (sqrtQ : ℚ → ℚ) (piQ : ℚ)
    (cosQ : ℚ → ℚ) (N h : Nat) (sr : ℚ) (signal : List ℚ)
    (hz : ∀ x ∈ signal, x = 0)
    (hfftz : ∀ y ∈ fft (List.replicate N 0), y = 0)
    (hsq : sqrtQ 0 = 0) :
    ∀ fr ∈ (analyzeSpectrum fft sqrtQ piQ cosQ N h sr signal).magnitudes,
      ∀ x ∈ fr, x = 0 := by
  intro fr hfr x hx
  have hmags : (analyzeSpectrum fft sqrtQ piQ cosQ N h sr signal).magnitudes
      = (frameStarts N h signal.length).map fun i =>
          calculateMagnitude sqrtQ N
            (fft (windowedSegment signal (generateHammingWindow piQ cosQ N) N i)) := rfl
  rw [hmags, List.mem_map] at hfr
  obtain ⟨start, _, hfr⟩ := hfr
  rw [windowedSegment_zero signal _ N start hz] at hfr
  rw [← hfr] at hx
  unfold calculateMagnitude at hx
  exact calcMagAux_all_zero sqrtQ hsq _ hfftz x (List.mem_of_mem_take hx)

/-- C7. (a) For every frame in which no bin of the (sorted) 80–2000 Hz band
has magnitude above `0.1`, the fundamental-frequency track reports frequency
`0` with confidence `0`.  (b) For an all-zero input signal — where the
external transform maps the zero block to zeros and `sqrt 0 = 0` — every
frame's fundamental is `0` with confidence `0` and every multi-pitch
note list is empty. -/
theorem quiet_band_and_silence :
    (∀ (log10Q : ℚ → ℚ) (S : SpectrogramData) (i : Nat),
      i < S.magnitudes.length →
      S.frequencies.Sorted (· ≤ ·) →
      (∀ j, j < S.frequencies.length → 80 ≤ S.frequencies.getD j 0 →
        S.frequencies.getD j 0 < 2000 → ¬ (0.1 < (S.magnitudes.getD i []).getD j 0)) →
      (extractFundamentalFrequency log10Q S).frequencies.getD i 0 = 0
      ∧ (extractFundamentalFrequency log10Q S).confidences.getD i 0 = 0)
    ∧ (∀ (log10Q : ℚ → ℚ) (fft : List ℚ → List ℚ) (sqrtQ : ℚ → ℚ) (piQ : ℚ)
        (cosQ : ℚ → ℚ) (N h : Nat) (sr : ℚ) (signal : List ℚ) (maxNotes : Nat),
      (∀ x ∈ signal, x = 0) →
      (∀ y ∈ fft (List.replicate N 0), y = 0) →
      sqrtQ 0 = 0 →
      (∀ i : Nat,
        (extractFundamentalFrequency log10Q
          (analyzeSpectrum fft sqrtQ piQ cosQ N h sr signal)).frequencies.getD i 0 = 0
        ∧ (extractFundamentalFrequency log10Q
          (analyzeSpectrum fft sqrtQ piQ cosQ N h sr signal)).confidences.getD i 0 = 0)
      ∧ ∀ nf ∈ (extractMultipleNotes log10Q
          (analyzeSpectrum fft sqrtQ piQ cosQ N h sr signal) maxNotes).noteFrames,
          nf.notes = []) := by
  constructor
  · intro log10Q S i hi hsorted hq
    have hres : (extractAux log10Q S.frequencies 0 S.magnitudes).getD i (0, 0) = (0, 0) := by
      rw [extractAux_getD log10Q S.frequencies S.magnitudes 0 i hi]
      exact estimate_band_quiet log10Q S.frequencies _ _ hsorted hq
    constructor
    · show ((extractAux log10Q S.frequencies 0 S.magnitudes).map Prod.fst).getD i 0 = 0
      rw [getD_map_fst, hres]
    · show ((extractAux log10Q S.frequencies 0 S.magnitudes).map Prod.snd).getD i 0 = 0
      rw [getD_map_snd, hres]
  · intro log10Q fft sqrtQ piQ cosQ N h sr signal maxNotes hz hfftz hsq
    have hframes := analyzeSpectrum_zero_frames fft sqrtQ piQ cosQ N h sr signal hz hfftz hsq
    set S := analyzeSpectrum fft sqrtQ piQ cosQ N h sr signal with hS
    have hall : ∀ r ∈ extractAux log10Q S.frequencies 0 S.magnitudes, r = (0, 0) :=
      extractAux_all_zero log10Q S.frequencies S.magnitudes 0
        (fun fr hfr p => estimate_zero_mags log10Q S.frequencies fr p (hframes fr hfr))
    constructor
    · intro i
      have hres : (extractAux log10Q S.frequencies 0 S.magnitudes).getD i (0, 0) = (0, 0) := by
        by_cases hi : i < (extractAux log10Q S.frequencies 0 S.magnitudes).length
        · rw [List.getD_eq_getElem _ _ hi]
          exact hall _ (List.getElem_mem hi)
        · rw [List.getD_eq_default _ _ (by omega)]
      constructor
      · show ((extractAux log10Q S.frequencies 0 S.magnitudes).map Prod.fst).getD i 0 = 0
        rw [getD_map_fst, hres]
      · show ((extractAux log10Q S.frequencies 0 S.magnitudes).map Prod.snd).getD i 0 = 0
        rw [getD_map_snd, hres]
    · intro nf hnf
      have hmem : nf ∈ (List.range S.magnitudes.length).map fun i =>
          ({ time := S.times.getD i 0
             notes := detectMultipleNotesInFrame log10Q S.frequencies
               (S.magnitudes.getD i []) maxNotes } : NoteFrame) := hnf
      rw [List.mem_map] at hmem
      obtain ⟨i, _, hmem⟩ := hmem
      rw [← hmem]
      show detectMultipleNotesInFrame log10Q S.frequencies (S.magnitudes.getD i []) maxNotes = []
      apply detect_zero_mags
      by_cases hi : i < S.magnitudes.length
      · rw [List.getD_eq_getElem _ _ hi]
        exact hframes _ (List.getElem_mem hi)
      · rw [List.getD_eq_default _ _ (by omega)]
        intro x hx
        simp at hx

/-- Witness for C7: part (a) at a quiet three-bin spectrogram and part (b)
at a two-sample all-zero signal. -/
theorem quiet_band_and_silence_witness :
    ((extractFundamentalFrequency id
        { frequencies := [0, 100, 2500], times := [0], magnitudes := [[0, 0, 0]] }).frequencies.getD 0 0
      = 0)
    ∧ ((extractFundamentalFrequency id
        (analyzeSpectrum (fun _ => [0, 0, 0, 0]) id 0 (fun x => x) 2 1 1 [0, 0])).frequencies.getD 0 0
      = 0) := by
  constructor
  · refine ((quiet_band_and_silence.1 id
      { frequencies := [0, 100, 2500], times := [0], magnitudes := [[0, 0, 0]] } 0
      (by norm_num) ?_ ?_)).1
    · simp [List.sorted_cons]
      norm_num
    · intro j hj h80 h2000
      have h0 : (([0, 0, 0] : List ℚ)).getD j 0 = 0 :=
        getD_zero_of_all_zero _ j (by intro x hx; simpa using hx)
      show ¬ (0.1 : ℚ) < (([0, 0, 0] : List ℚ)).getD j 0
      rw [h0]
      norm_num
  · refine (((quiet_band_and_silence.2 id (fun _ => [0, 0, 0, 0]) id 0 (fun x => x)
      2 1 1 [0, 0] 5 ?_ ?_ ?_)).1 0).1
    · intro x hx
      simpa using hx
    · intro y hy
      simpa using hy
    · rfl

/-! ### C3: the 5-point peak test -/

theorem isPeakAt_iff (mags : List ℚ) (minMag : ℚ) (i : Nat) (h1 : 1 ≤ i)
    (h2 : i + 1 < mags.length) :
    isPeakAt mags minMag i = true
      ↔ (mags.getD (i - 1) 0 < mags.getD i 0
        ∧ mags.getD (i + 1) 0 < mags.getD i 0
        ∧ minMag < mags.getD i 0
        ∧ (if 2 ≤ i then mags.getD (i - 2) 0 else 0) < mags.getD i 0
        ∧ mags.getD (i + 2) 0 < mags.getD i 0) := by
  have hi : i < mags.length := by omega
  have him : i - 1 < mags.length := by omega
  unfold isPeakAt
  rw [if_neg (by omega : ¬ i = 0)]
  rw [List.getElem?_eq_getElem hi, List.getElem?_eq_getElem him, List.getElem?_eq_getElem h2]
  simp only [Bool.and_eq_true, decide_eq_true_eq]
  rw [List.getD_eq_getElem _ _ hi, List.getD_eq_getElem _ _ him, List.getD_eq_getElem _ _ h2,
    List.getD_eq_getElem?_getD, List.getD_eq_getElem?_getD]
  tauto

theorem findPeaks_mem (mags : List ℚ) (s e : Nat) (minMag : ℚ) (i : Nat) (m : ℚ) :
    (i, m) ∈ findPeaks mags s e minMag
      ↔ (s + 1 ≤ i ∧ i + 1 < e ∧ isPeakAt mags minMag i = true ∧ m = mags.getD i 0) := by
  unfold findPeaks
  rw [List.mem_filterMap]
  constructor
  · rintro ⟨a, ha, hfa⟩
    rw [List.mem_range'_1] at ha
    by_cases hp : isPeakAt mags minMag a
    · rw [if_pos hp] at hfa
      have hai : a = i ∧ (mags[a]?).getD 0 = m := by
        constructor
        · exact congrArg Prod.fst (Option.some.inj hfa)
        · exact congrArg Prod.snd (Option.some.inj hfa)
      obtain ⟨hai, hm⟩ := hai
      subst hai
      refine ⟨by omega, by omega, hp, ?_⟩
      rw [← hm, List.getD_eq_getElem?_getD]
    · rw [if_neg hp] at hfa
      exact absurd hfa (by simp)
  · rintro ⟨hs, he, hp, hm⟩
    refine ⟨i, ?_, ?_⟩
    · rw [List.mem_range'_1]
      omega
    · rw [if_pos hp, hm, List.getD_eq_getElem?_getD]

/-- C3. Inside the detection band `[startIdx, endIdx)` obtained from the
80–2000 Hz searches, an index `i` — excluding the sample at each band edge,
i.e. `startIdx + 1 ≤ i < endIdx − 1` — is reported as a peak iff its
magnitude exceeds both direct neighbors, the `0.05` floor, and both two-away
neighbors, missing two-away neighbors counting as `0`.  The hypothesis
`endIdx ≤ magnitudes.length` is the well-formedness of the frame. -/
theorem findPeaks_characterization (freqs mags : List ℚ) (s e : Nat)
    (_h80 : freqs.findIdx? (fun f => decide (80 ≤ f)) = some s)
    (_h2000 : freqs.findIdx? (fun f => decide (2000 ≤ f)) = some e)
    (hlen : e ≤ mags.length) (i : Nat) :
    (∃ m, (i, m) ∈ findPeaks mags s e 0.05)
      ↔ (s + 1 ≤ i ∧ i + 1 < e
        ∧ mags.getD (i - 1) 0 < mags.getD i 0
        ∧ mags.getD (i + 1) 0 < mags.getD i 0
        ∧ (0.05 : ℚ) < mags.getD i 0
        ∧ (if 2 ≤ i then mags.getD (i - 2) 0 else 0) < mags.getD i 0
        ∧ mags.getD (i + 2) 0 < mags.getD i 0) := by
  constructor
  · rintro ⟨m, hm⟩
    rw [findPeaks_mem] at hm
    obtain ⟨hs, he, hp, _⟩ := hm
    have hi1 : 1 ≤ i := by omega
    have hi2 : i + 1 < mags.length := by omega
    have := (isPeakAt_iff mags 0.05 i hi1 hi2).mp hp
    tauto
  · rintro ⟨hs, he, hc⟩
    refine ⟨mags.getD i 0, ?_⟩
    rw [findPeaks_mem]
    refine ⟨hs, he, ?_, rfl⟩
    exact (isPeakAt_iff mags 0.05 i (by omega) (by omega)).mpr hc

/-- Witness for C3: a frame with a genuine 5-point peak at index 3. -/
theorem findPeaks_characterization_witness :
    (([0, 50, 100, 150, 200, 2500] : List ℚ).findIdx? (fun f => decide (80 ≤ f)) = some 2)
    ∧ (([0, 50, 100, 150, 200, 2500] : List ℚ).findIdx? (fun f => decide (2000 ≤ f)) = some 5)
    ∧ ((5 : Nat) ≤ ([0, 0, 0.2, 1, 0.1, 0] : List ℚ).length)
    ∧ (∃ m, ((3 : Nat), m) ∈ findPeaks [0, 0, 0.2, 1, 0.1, 0] 2 5 0.05) := by
  have h80 : ([0, 50, 100, 150, 200, 2500] : List ℚ).findIdx?
      (fun f => decide (80 ≤ f)) = some 2 := by
    simp [List.findIdx?_cons]
    norm_num
  have h2000 : ([0, 50, 100, 150, 200, 2500] : List ℚ).findIdx?
      (fun f => decide (2000 ≤ f)) = some 5 := by
    simp [List.findIdx?_cons]
    norm_num
  refine ⟨h80, h2000, by norm_num, ?_⟩
  apply (findPeaks_characterization [0, 50, 100, 150, 200, 2500] [0, 0, 0.2, 1, 0.1, 0]
    2 5 h80 h2000 (by norm_num) 3).mpr
  refine ⟨by norm_num, by norm_num, ?_, ?_, ?_, ?_, ?_⟩ <;> norm_num

/-! ### C6: well-formedness of the spectrogram -/

theorem calcMagAux_length (sqrtQ : ℚ → ℚ) : ∀ l : List ℚ,
    (calcMagAux sqrtQ l).length = l.length / 2
  | [] => rfl
  | [x] => by simp [calcMagAux]
  | _ :: _ :: rest => by
    simp only [calcMagAux, List.length_cons, calcMagAux_length sqrtQ rest]
    omega

theorem calcMagAux_nonneg (sqrtQ : ℚ → ℚ) (hs : ∀ x : ℚ, 0 ≤ x → 0 ≤ sqrtQ x) :
    ∀ l : List ℚ, ∀ y ∈ calcMagAux sqrtQ l, 0 ≤ y
  | [], y, hy => by simp [calcMagAux] at hy
  | [_], y, hy => by simp [calcMagAux] at hy
  | re :: im :: rest, y, hy => by
    simp only [calcMagAux, List.mem_cons] at hy
    rcases hy with hy | hy
    · rw [hy]
      exact hs _ (add_nonneg (mul_self_nonneg re) (mul_self_nonneg im))
    · exact calcMagAux_nonneg sqrtQ hs rest y hy

/-- C6. With a positive sample rate (and the even transform size required by
the transform), `analyzeSpectrum` is well-formed: `transformSize/2` frequency
bins with `frequencies[i] = i·sampleRate/transformSize` (hence strictly
increasing from 0), as many frames as times, every frame of bin count
`transformSize/2`, and every magnitude non-negative.  The external transform
fills an interleaved complex array of length `2·transformSize`
(`createComplexArray`), and `sqrt` of a non-negative number is
non-negative. -/
theorem analyzeSpectrum_wellFormed (fft : List ℚ → List ℚ) (sqrtQ : ℚ → ℚ) (piQ : ℚ)
    (cosQ : ℚ → ℚ) (N h : Nat) (sr : ℚ) (signal : List ℚ)
    (hsr : 0 < sr) (hN : 2 ∣ N)
    (hfft : ∀ s : List ℚ, (fft s).length = 2 * N)
    (hsqrt : ∀ x : ℚ, 0 ≤ x → 0 ≤ sqrtQ x) :
    (analyzeSpectrum fft sqrtQ piQ cosQ N h sr signal).frequencies.length = N / 2
    ∧ (∀ i, i < N / 2 →
        (analyzeSpectrum fft sqrtQ piQ cosQ N h sr signal).frequencies.getD i 0
          = (i : ℚ) * sr / (N : ℚ))
    ∧ (∀ i j, i < j →
        j < (analyzeSpectrum fft sqrtQ piQ cosQ N h sr signal).frequencies.length →
        (analyzeSpectrum fft sqrtQ piQ cosQ N h sr signal).frequencies.getD i 0
          < (analyzeSpectrum fft sqrtQ piQ cosQ N h sr signal).frequencies.getD j 0)
    ∧ (analyzeSpectrum fft sqrtQ piQ cosQ N h sr signal).magnitudes.length
        = (analyzeSpectrum fft sqrtQ piQ cosQ N h sr signal).times.length
    ∧ (∀ fr ∈ (analyzeSpectrum fft sqrtQ piQ cosQ N h sr signal).magnitudes,
        fr.length = (analyzeSpectrum fft sqrtQ piQ cosQ N h sr signal).frequencies.length)
    ∧ (∀ fr ∈ (analyzeSpectrum fft sqrtQ piQ cosQ N h sr signal).magnitudes,
        ∀ x ∈ fr, 0 ≤ x) := by
  have hfreq : (analyzeSpectrum fft sqrtQ piQ cosQ N h sr signal).frequencies
      = (List.range ((N + 1) / 2)).map fun i => (Nat.cast i : ℚ) * (sr / (N : ℚ)) := rfl
  have htimes : (analyzeSpectrum fft sqrtQ piQ cosQ N h sr signal).times
      = (frameStarts N h signal.length).map fun i => (Nat.cast i : ℚ) / sr := rfl
  have hmags : (analyzeSpectrum fft sqrtQ piQ cosQ N h sr signal).magnitudes
      = (frameStarts N h signal.length).map fun i =>
          calculateMagnitude sqrtQ N
            (fft (windowedSegment signal (generateHammingWindow piQ cosQ N) N i)) := rfl
  have hhalf : (N + 1) / 2 = N / 2 := by omega
  have hflen : (analyzeSpectrum fft sqrtQ piQ cosQ N h sr signal).frequencies.length
      = N / 2 := by
    rw [hfreq, List.length_map, List.length_range, hhalf]
  have hfval : ∀ i, i < N / 2 →
      (analyzeSpectrum fft sqrtQ piQ cosQ N h sr signal).frequencies.getD i 0
        = (i : ℚ) * sr / (N : ℚ) := by
    intro i hi
    have hi2 : i <
        ((List.range ((N + 1) / 2)).map fun i => (Nat.cast i : ℚ) * (sr / (N : ℚ))).length := by
      rw [List.length_map, List.length_range]
      omega
    rw [hfreq, List.getD_eq_getElem _ _ hi2, List.getElem_map, List.getElem_range]
    rw [mul_div_assoc]
  refine ⟨hflen, hfval, ?_, ?_, ?_, ?_⟩
  · intro i j hij hj
    rw [hflen] at hj
    have hN2 : 0 < N := by omega
    have hpos : 0 < sr / (N : ℚ) := by positivity
    rw [hfval i (by omega), hfval j hj, mul_div_assoc, mul_div_assoc]
    have hcast : (i : ℚ) < (j : ℚ) := by exact_mod_cast hij
    exact mul_lt_mul_of_pos_right hcast hpos
  · rw [htimes, hmags, List.length_map, List.length_map]
  · intro fr hfr
    rw [hmags, List.mem_map] at hfr
    obtain ⟨start, _, hfr⟩ := hfr
    rw [← hfr]
    unfold calculateMagnitude
    rw [List.length_take, calcMagAux_length, hfft, hflen]
    omega
  · intro fr hfr x hx
    rw [hmags, List.mem_map] at hfr
    obtain ⟨start, _, hfr⟩ := hfr
    rw [← hfr] at hx
    unfold calculateMagnitude at hx
    exact calcMagAux_nonneg sqrtQ hsqrt _ x (List.mem_of_mem_take hx)

/-- Witness for C6: transform size 4, one frame of a four-sample signal,
a constant stand-in transform of the contractual length 8, and `sqrt`
modelled by the identity on the evaluated points. -/
theorem analyzeSpectrum_wellFormed_witness :
    (0 : ℚ) < 1 ∧ (2 ∣ 4)
    ∧ (analyzeSpectrum (fun _ => List.replicate 8 1) id 0 (fun x => x)
        4 2 1 [1, 2, 3, 4]).frequencies.length = 4 / 2 :=
  ⟨by norm_num, by norm_num,
    (analyzeSpectrum_wellFormed (fun _ => List.replicate 8 1) id 0 (fun x => x)
      4 2 1 [1, 2, 3, 4] (by norm_num) (by norm_num)
      (fun s => by simp) (fun x hx => hx)).1⟩

/-! ### C4: greedy overlap suppression on a pair of candidates -/

/-- C4. For two surviving candidate peaks (scanned in list order), the
greedy overlap suppression merges them exactly when their frequency ratio
`max/min` is below `1.1`, keeping the one with the strictly larger boosted
magnitude (the first on a tie); at ratio `≥ 1.1` both remain.  In
particular two peaks at ratio 1.05 collapse to one note and two peaks at
ratio 1.5 stay separate. -/
theorem filterOverlappingNotes_pair (a b : DetectedNote) :
    (noteRatio a b < 1.1 →
      filterOverlappingNotes [a, b] = [if a.magnitude < b.magnitude then b else a])
    ∧ (¬ noteRatio a b < 1.1 → filterOverlappingNotes [a, b] = [a, b]) := by
  constructor
  · intro hr
    by_cases hm : a.magnitude < b.magnitude
    · rw [if_pos hm]
      unfold filterOverlappingNotes
      rw [if_neg (by simp)]
      rw [show ([a, b] : List DetectedNote).length = 2 from rfl,
        show List.range 2 = [0, 1] by decide]
      simp only [List.foldl_cons, List.foldl_nil]
      simp [overlapOuter, overlapInner, List.range', hr, hm]
    · rw [if_neg hm]
      unfold filterOverlappingNotes
      rw [if_neg (by simp)]
      rw [show ([a, b] : List DetectedNote).length = 2 from rfl,
        show List.range 2 = [0, 1] by decide]
      simp only [List.foldl_cons, List.foldl_nil]
      simp [overlapOuter, overlapInner, List.range', hr, hm]
  · intro hr
    unfold filterOverlappingNotes
    rw [if_neg (by simp)]
    rw [show ([a, b] : List DetectedNote).length = 2 from rfl,
      show List.range 2 = [0, 1] by decide]
    simp only [List.foldl_cons, List.foldl_nil]
    simp [overlapOuter, overlapInner, List.range', hr]

/-- Witness for C4: peaks at 100 Hz and 105 Hz (ratio 1.05) collapse to the
one with larger boosted magnitude; peaks at 100 Hz and 150 Hz (ratio 1.5)
both remain. -/
theorem filterOverlappingNotes_pair_witness :
    (noteRatio ⟨100, 1, 2⟩ ⟨105, 1, 1⟩ < 1.1
      ∧ filterOverlappingNotes [⟨100, 1, 2⟩, ⟨105, 1, 1⟩] = [⟨100, 1, 2⟩])
    ∧ (¬ noteRatio ⟨100, 1, 2⟩ ⟨150, 1, 1⟩ < 1.1
      ∧ filterOverlappingNotes [⟨100, 1, 2⟩, ⟨150, 1, 1⟩]
          = [⟨100, 1, 2⟩, ⟨150, 1, 1⟩]) := by
  have hr1 : noteRatio ⟨100, 1, 2⟩ ⟨105, 1, 1⟩ < 1.1 := by
    unfold noteRatio
    norm_num
  have hr2 : ¬ noteRatio ⟨100, 1, 2⟩ ⟨150, 1, 1⟩ < 1.1 := by
    unfold noteRatio
    norm_num
  refine ⟨⟨hr1, ?_⟩, ⟨hr2, (filterOverlappingNotes_pair _ _).2 hr2⟩⟩
  have := (filterOverlappingNotes_pair ⟨100, 1, 2⟩ ⟨105, 1, 1⟩).1 hr1
  rw [if_neg (by norm_num)] at this
  exact this

/-! ### C5: note-frame invariants of the multi-pitch detector -/

instance : IsTotal DetectedNote fun a b => b.magnitude ≤ a.magnitude :=
  ⟨fun a b => le_total b.magnitude a.magnitude⟩

instance : IsTrans DetectedNote fun a b => b.magnitude ≤ a.magnitude :=
  ⟨fun _ _ _ h1 h2 => le_trans h2 h1⟩

theorem calculateMultiNoteConfidence_le_one (log10Q : ℚ → ℚ)
    (magnitude harmonicStrength : ℚ) (mags : List ℚ) :
    calculateMultiNoteConfidence log10Q magnitude harmonicStrength mags ≤ 1 := by
  unfold calculateMultiNoteConfidence
  apply max_le
  · norm_num
  · exact min_le_left _ _

theorem overlapInner_eq (notes : List DetectedNote) (cur best : DetectedNote)
    (bestIdx : Nat) (used : List Nat) (j : Nat) :
    overlapInner notes cur (best, bestIdx, used) j
      = if j ∈ used then (best, bestIdx, used)
        else if noteRatio cur (notes.getD j ⟨0, 0, 0⟩) < 1.1 then
          if best.magnitude < (notes.getD j ⟨0, 0, 0⟩).magnitude then
            (notes.getD j ⟨0, 0, 0⟩, j, j :: used)
          else (best, bestIdx, j :: used)
        else (best, bestIdx, used) := rfl

theorem overlapOuter_eq (notes filtered : List DetectedNote) (used : List Nat) (i : Nat) :
    overlapOuter notes (filtered, used) i
      = if i ∈ used then (filtered, used)
        else
          (filtered ++ [((List.range' (i + 1) (notes.length - (i + 1))).foldl
              (overlapInner notes (notes.getD i ⟨0, 0, 0⟩))
              (notes.getD i ⟨0, 0, 0⟩, i, used)).1],
            ((List.range' (i + 1) (notes.length - (i + 1))).foldl
              (overlapInner notes (notes.getD i ⟨0, 0, 0⟩))
              (notes.getD i ⟨0, 0, 0⟩, i, used)).2.1 ::
            ((List.range' (i + 1) (notes.length - (i + 1))).foldl
              (overlapInner notes (notes.getD i ⟨0, 0, 0⟩))
              (notes.getD i ⟨0, 0, 0⟩, i, used)).2.2) := rfl

/-- While scanning the group of `currentNote`, the running best never changes
if every scanned index holds a magnitude not exceeding `currentNote`'s. -/
theorem overlapInner_best_const (notes : List DetectedNote) (cur : DetectedNote) :
    ∀ (js : List Nat) (used : List Nat) (bestIdx : Nat),
      (∀ j ∈ js, (notes.getD j ⟨0, 0, 0⟩).magnitude ≤ cur.magnitude) →
      (js.foldl (overlapInner notes cur) (cur, bestIdx, used)).1 = cur
      ∧ (js.foldl (overlapInner notes cur) (cur, bestIdx, used)).2.1 = bestIdx := by
  intro js
  induction js with
  | nil => intro used bestIdx _; exact ⟨rfl, rfl⟩
  | cons j js ih =>
    intro used bestIdx hall
    have hj := hall j (by simp)
    have hrest : ∀ j2 ∈ js, (notes.getD j2 ⟨0, 0, 0⟩).magnitude ≤ cur.magnitude :=
      fun j2 h2 => hall j2 (by simp [h2])
    rw [List.foldl_cons, overlapInner_eq]
    by_cases hju : j ∈ used
    · rw [if_pos hju]
      exact ih used bestIdx hrest
    · rw [if_neg hju]
      by_cases hratio : noteRatio cur (notes.getD j ⟨0, 0, 0⟩) < 1.1
      · rw [if_pos hratio, if_neg (not_lt.mpr hj)]
        exact ih (j :: used) bestIdx hrest
      · rw [if_neg hratio]
        exact ih used bestIdx hrest

/-- Invariant of the outer suppression scan on a descending-sorted candidate
list: the accumulated output stays descending-sorted and drawn from the
candidate list. -/
theorem overlapOuter_invariant (notes : List DetectedNote)
    (hsort : notes.Pairwise fun a b => b.magnitude ≤ a.magnitude) :
    ∀ (m pos : Nat), pos + m ≤ notes.length →
    ∀ (filtered : List DetectedNote) (used : List Nat),
      filtered.Pairwise (fun a b => b.magnitude ≤ a.magnitude) →
      (∀ x ∈ filtered, x ∈ notes) →
      (∀ x ∈ filtered, ∀ k, pos ≤ k → k < notes.length →
        (notes.getD k ⟨0, 0, 0⟩).magnitude ≤ x.magnitude) →
      ((List.range' pos m).foldl (overlapOuter notes) (filtered, used)).1.Pairwise
        (fun a b => b.magnitude ≤ a.magnitude)
      ∧ ∀ x ∈ ((List.range' pos m).foldl (overlapOuter notes) (filtered, used)).1,
          x ∈ notes := by
  intro m
  induction m with
  | zero => intro pos _ filtered used h1 h2 _; exact ⟨h1, h2⟩
  | succ m ih =>
    intro pos hpm filtered used h1 h2 h3
    have hpos : pos < notes.length := by omega
    have hgetDidx : ∀ i j, i < j → j < notes.length →
        (notes.getD j ⟨0, 0, 0⟩).magnitude ≤ (notes.getD i ⟨0, 0, 0⟩).magnitude := by
      intro i j hij hj
      have hi : i < notes.length := by omega
      rw [List.getD_eq_getElem _ _ hj, List.getD_eq_getElem _ _ hi]
      exact List.pairwise_iff_getElem.mp hsort i j hi hj hij
    rw [List.range'_succ, List.foldl_cons, overlapOuter_eq]
    by_cases hu : pos ∈ used
    · rw [if_pos hu]
      exact ih (pos + 1) (by omega) filtered used h1 h2
        fun x hx k hk1 hk2 => h3 x hx k (by omega) hk2
    · rw [if_neg hu]
      set cur := notes.getD pos ⟨0, 0, 0⟩ with hcur
      have hscan := overlapInner_best_const notes cur
        (List.range' (pos + 1) (notes.length - (pos + 1))) used pos
        (by
          intro j hjm
          rw [List.mem_range'_1] at hjm
          exact hgetDidx pos j (by omega) (by omega))
      rw [hscan.1]
      have hcur_mem : cur ∈ notes := by
        rw [hcur, List.getD_eq_getElem _ _ hpos]
        exact List.getElem_mem hpos
      apply ih (pos + 1) (by omega)
      · rw [List.pairwise_append]
        refine ⟨h1, by simp, ?_⟩
        intro a ha b hb
        rw [List.mem_singleton] at hb
        subst hb
        exact h3 a ha pos (le_refl pos) hpos
      · intro x hx
        rw [List.mem_append] at hx
        rcases hx with hx | hx
        · exact h2 x hx
        · rw [List.mem_singleton] at hx
          subst hx
          exact hcur_mem
      · intro x hx k hk1 hk2
        rw [List.mem_append] at hx
        rcases hx with hx | hx
        · exact h3 x hx k (by omega) hk2
        · rw [List.mem_singleton] at hx
          subst hx
          exact hgetDidx pos k (by omega) hk2

/-- On a descending-sorted input, overlap suppression returns a
descending-sorted list of members of the input. -/
theorem filterOverlappingNotes_invariant (notes : List DetectedNote)
    (hsort : notes.Pairwise fun a b => b.magnitude ≤ a.magnitude) :
    (filterOverlappingNotes notes).Pairwise (fun a b => b.magnitude ≤ a.magnitude)
    ∧ ∀ x ∈ filterOverlappingNotes notes, x ∈ notes := by
  unfold filterOverlappingNotes
  by_cases hlen : notes.length ≤ 1
  · rw [if_pos hlen]
    exact ⟨hsort, fun x hx => hx⟩
  · rw [if_neg hlen, List.range_eq_range']
    exact overlapOuter_invariant notes hsort notes.length 0 (by omega) [] []
      (by simp) (by simp) (by simp)

/-- The per-frame candidate notes built from the detected peaks. -/
def candidateNotesOf (log10Q : ℚ → ℚ) (freqs mags : List ℚ) (s e : Nat) :
    List DetectedNote :=
  (findPeaks mags s e 0.05).filterMap fun peak =>
    let frequency := freqs.getD peak.1 0
    let magnitude := peak.2
    let harmonicStrength := calculateHarmonicStrength frequency freqs mags
    let confidence := calculateMultiNoteConfidence log10Q magnitude harmonicStrength mags
    if 0.1 < confidence then
      some { frequency := frequency, confidence := confidence,
             magnitude := magnitude * harmonicStrength }
    else none

theorem detectMultipleNotesInFrame_eq_of_some (log10Q : ℚ → ℚ) (freqs mags : List ℚ)
    (maxNotes s e : Nat)
    (h80 : freqs.findIdx? (fun f => decide (80 ≤ f)) = some s)
    (h2000 : freqs.findIdx? (fun f => decide (2000 ≤ f)) = some e) :
    detectMultipleNotesInFrame log10Q freqs mags maxNotes
      = (filterOverlappingNotes ((candidateNotesOf log10Q freqs mags s e).insertionSort
          fun a b => b.magnitude ≤ a.magnitude)).take maxNotes := by
  unfold detectMultipleNotesInFrame
  rw [h80, h2000]
  rfl

theorem detectMultipleNotesInFrame_invariant (log10Q : ℚ → ℚ)
    (freqs mags : List ℚ) (maxNotes : Nat) :
    (detectMultipleNotesInFrame log10Q freqs mags maxNotes).length ≤ maxNotes
    ∧ (detectMultipleNotesInFrame log10Q freqs mags maxNotes).Pairwise
        (fun a b => b.magnitude ≤ a.magnitude)
    ∧ ∀ note ∈ detectMultipleNotesInFrame log10Q freqs mags maxNotes,
        0.1 < note.confidence ∧ note.confidence ≤ 1 := by
  rcases h80 : freqs.findIdx? (fun f => decide (80 ≤ f)) with _ | s
  · unfold detectMultipleNotesInFrame
    rw [h80]
    simp
  rcases h2000 : freqs.findIdx? (fun f => decide (2000 ≤ f)) with _ | e
  · unfold detectMultipleNotesInFrame
    rw [h80, h2000]
    simp
  rw [detectMultipleNotesInFrame_eq_of_some log10Q freqs mags maxNotes s e h80 h2000]
  have hsorted := List.sorted_insertionSort
    (fun a b : DetectedNote => b.magnitude ≤ a.magnitude)
    (candidateNotesOf log10Q freqs mags s e)
  have hinv := filterOverlappingNotes_invariant _ hsorted
  refine ⟨List.length_take_le _ _, (hinv.1).sublist (List.take_sublist _ _), ?_⟩
  intro note hnote
  have hmem1 := hinv.2 note (List.mem_of_mem_take hnote)
  have hmem2 := (List.perm_insertionSort
    (fun a b : DetectedNote => b.magnitude ≤ a.magnitude) _).mem_iff.mp hmem1
  unfold candidateNotesOf at hmem2
  rw [List.mem_filterMap] at hmem2
  obtain ⟨peak, _, hpeak⟩ := hmem2
  by_cases hconf : (0.1 : ℚ) < calculateMultiNoteConfidence log10Q peak.2
      (calculateHarmonicStrength (freqs.getD peak.1 0) freqs mags) mags
  · simp only [hconf, if_true, if_pos] at hpeak
    have hrec := Option.some.inj hpeak
    rw [← hrec]
    exact ⟨hconf, calculateMultiNoteConfidence_le_one _ _ _ _⟩
  · simp only [hconf, if_false] at hpeak
    exact absurd hpeak (by simp)

/-- C5. Every `NoteFrame` emitted by `extractMultipleNotes` holds at most
`maxNotes` notes, ordered by descending boosted magnitude, and every emitted
note has confidence strictly above `0.1` and at most `1`. -/
theorem extractMultipleNotes_noteFrame_invariant (log10Q : ℚ → ℚ)
    (S : SpectrogramData) (maxNotes : Nat) :
    ∀ nf ∈ (extractMultipleNotes log10Q S maxNotes).noteFrames,
      nf.notes.length ≤ maxNotes
      ∧ nf.notes.Pairwise (fun a b => b.magnitude ≤ a.magnitude)
      ∧ ∀ note ∈ nf.notes, 0.1 < note.confidence ∧ note.confidence ≤ 1 := by
  intro nf hnf
  have hmem : nf ∈ (List.range S.magnitudes.length).map fun i =>
      ({ time := S.times.getD i 0
         notes := detectMultipleNotesInFrame log10Q S.frequencies
           (S.magnitudes.getD i []) maxNotes } : NoteFrame) := hnf
  rw [List.mem_map] at hmem
  obtain ⟨i, _, hmem⟩ := hmem
  rw [← hmem]
  exact detectMultipleNotesInFrame_invariant log10Q S.frequencies
    (S.magnitudes.getD i []) maxNotes

/-- Witness for C5 on a one-frame spectrogram. -/
theorem extractMultipleNotes_noteFrame_invariant_witness :
    (NoteFrame.mk 0 (detectMultipleNotesInFrame id [0, 100, 2500] [0, 0, 0] 5)
      ∈ (extractMultipleNotes id
          { frequencies := [0, 100, 2500], times := [0], magnitudes := [[0, 0, 0]] }
          5).noteFrames)
    ∧ (detectMultipleNotesInFrame id [0, 100, 2500] [0, 0, 0] 5).length ≤ 5 := by
  have hmem : NoteFrame.mk 0 (detectMultipleNotesInFrame id [0, 100, 2500] [0, 0, 0] 5)
      ∈ (extractMultipleNotes id
          { frequencies := [0, 100, 2500], times := [0], magnitudes := [[0, 0, 0]] }
          5).noteFrames :=
    List.mem_singleton.mpr rfl
  exact ⟨hmem,
    (extractMultipleNotes_noteFrame_invariant id
      { frequencies := [0, 100, 2500], times := [0], magnitudes := [[0, 0, 0]] } 5
      _ hmem).1⟩

/-! ### C2: the single-pitch confidence formula -/

/-- The confidence formula as the specification states it: the unweighted
average of four sub-scores, each clamped to `[0, 0.25]` and scaled by 4 —
energy `min(m²/Σm², 0.25)`, harmonic `min((hs−1)/4, 0.25)`, temporal
`min(min(f,fPrev)/max(f,fPrev), 0.25)` when the previous frame had a nonzero
fundamental and the fixed neutral value `0.25` otherwise, and
signal-to-noise `min(log10(snr+1)/2, 0.25)` with
`snr = m/(noise + 1e-10)`, `noise` the mean of the bottom 20% by rank of the
descending-sorted frame (rank cutoff `⌊0.8·len⌋`, averaged over the 20%
portion `len·0.2`). -/
def specConfidenceFormula (log10Q : ℚ → ℚ) (f magnitude harmonicStrength : ℚ)
    (magnitudes : List ℚ) (fPrev : ℚ) : ℚ :=
  let energyScore := min (magnitude * magnitude / sumSquares magnitudes) 0.25
  let harmonicScore := min ((harmonicStrength - 1) / 4) 0.25
  let temporalTerm :=
    if fPrev ≠ 0 then min (min f fPrev / max f fPrev) 0.25 * 4 else (0.25 : ℚ)
  let noise := sumList ((sortDescQ magnitudes).drop (4 * magnitudes.length / 5)) /
    ((magnitudes.length : ℚ) * 0.2)
  let snrScore := min (log10Q (magnitude / (noise + 1e-10) + 1) / 2) 0.25
  (energyScore * 4 + harmonicScore * 4 + temporalTerm + snrScore * 4) / 4

theorem foldl_addsq_shift (x : ℚ) (l : List ℚ) :
    l.foldl (fun sum mag => sum + mag * mag) x
      = x + l.foldl (fun sum mag => sum + mag * mag) 0 := by
  induction l generalizing x with
  | nil => simp
  | cons a l ih => simp only [List.foldl]; rw [ih (x + a * a), ih (0 + a * a)]; ring

theorem sumSquares_nonneg (l : List ℚ) : 0 ≤ sumSquares l := by
  induction l with
  | nil => exact le_refl 0
  | cons a l ih =>
    unfold sumSquares at ih ⊢
    simp only [List.foldl]
    rw [foldl_addsq_shift]
    nlinarith [mul_self_nonneg a]

theorem getD_nonneg (l : List ℚ) (i : Nat) (h : ∀ x ∈ l, 0 ≤ x) : 0 ≤ l.getD i 0 := by
  by_cases hi : i < l.length
  · rw [List.getD_eq_getElem _ _ hi]
    exact h _ (l.getElem_mem hi)
  · rw [List.getD_eq_default _ _ (by omega)]

theorem sortDescQ_length (l : List ℚ) : (sortDescQ l).length = l.length :=
  (List.perm_insertionSort _ l).length_eq

theorem sortDescQ_mem (l : List ℚ) (x : ℚ) (h : x ∈ sortDescQ l) : x ∈ l :=
  (List.perm_insertionSort _ l).mem_iff.mp h

theorem harmonicStep_eq (f : ℚ) (freqs mags : List ℚ) (acc h : ℚ) :
    harmonicStep f freqs mags acc h
      = match findClosestFrequencyIndex (f * h) freqs with
        | some ci =>
          if |freqs.getD ci 0 - f * h| < 20 then acc + mags.getD ci 0 * (1 / h) else acc
        | none => acc := rfl

theorem calculateHarmonicStrength_ge_one (f : ℚ) (freqs mags : List ℚ)
    (hmags : ∀ x ∈ mags, 0 ≤ x) : 1 ≤ calculateHarmonicStrength f freqs mags := by
  have hstep : ∀ (acc h : ℚ), 0 < h → acc ≤ harmonicStep f freqs mags acc h := by
    intro acc h hh
    rw [harmonicStep_eq]
    rcases hidx : findClosestFrequencyIndex (f * h) freqs with _ | ci
    · exact le_refl acc
    · show acc ≤ if |freqs.getD ci 0 - f * h| < 20 then acc + mags.getD ci 0 * (1 / h) else acc
      by_cases habs : |freqs.getD ci 0 - f * h| < 20
      · rw [if_pos habs]
        have h1 : 0 ≤ mags.getD ci 0 := getD_nonneg mags ci hmags
        have h2 : 0 ≤ 1 / h := by positivity
        nlinarith
      · rw [if_neg habs]
  unfold calculateHarmonicStrength
  simp only [List.foldl_cons, List.foldl_nil]
  calc (1 : ℚ) ≤ harmonicStep f freqs mags 1 2 := hstep 1 2 (by norm_num)
  _ ≤ harmonicStep f freqs mags (harmonicStep f freqs mags 1 2) 3 :=
      hstep _ 3 (by norm_num)
  _ ≤ harmonicStep f freqs mags
      (harmonicStep f freqs mags (harmonicStep f freqs mags 1 2) 3) 4 :=
      hstep _ 4 (by norm_num)
  _ ≤ harmonicStep f freqs mags (harmonicStep f freqs mags
      (harmonicStep f freqs mags (harmonicStep f freqs mags 1 2) 3) 4) 5 :=
      hstep _ 5 (by norm_num)

/-- The code's confidence equals the specification's formula and lies in
`[0, 1]`, for a genuine candidate (`m > 0.1`) of a non-negative frame with a
positive candidate frequency, a non-negative previous fundamental, and a
logarithm that is non-negative on `[1, ∞)`. -/
theorem calculateConfidence_eq_spec (log10Q : ℚ → ℚ) (f m hs : ℚ) (mags : List ℚ)
    (prev : ℚ) (hf : 0 < f) (hprev : 0 ≤ prev) (hm : 0.1 < m)
    (hmags : ∀ x ∈ mags, 0 ≤ x) (hhs : 1 ≤ hs)
    (hlog : ∀ x : ℚ, 1 ≤ x → 0 ≤ log10Q x) :
    calculateConfidence log10Q f m hs mags prev
      = specConfidenceFormula log10Q f m hs mags prev
    ∧ 0 ≤ specConfidenceFormula log10Q f m hs mags prev
    ∧ specConfidenceFormula log10Q f m hs mags prev ≤ 1 := by
  have hlen : (sortDescQ mags).length = mags.length := sortDescQ_length mags
  have hnoise : 0 ≤ sumList ((sortDescQ mags).drop (4 * mags.length / 5)) /
      ((mags.length : ℚ) * 0.2) := by
    apply div_nonneg
    · apply sumList_nonneg
      intro x hx
      exact hmags x (sortDescQ_mem mags x (List.mem_of_mem_drop hx))
    · positivity
  have he1 : 0 ≤ min (m * m / sumSquares mags) 0.25 := by
    apply le_min
    · exact div_nonneg (mul_self_nonneg m) (sumSquares_nonneg mags)
    · norm_num
  have he2 : min (m * m / sumSquares mags) 0.25 ≤ 0.25 := min_le_right _ _
  have hh1 : 0 ≤ min ((hs - 1) / 4) 0.25 := by
    apply le_min
    · linarith
    · norm_num
  have hh2 : min ((hs - 1) / 4) 0.25 ≤ 0.25 := min_le_right _ _
  have ht : 0 ≤ (if prev ≠ 0 then min (min f prev / max f prev) 0.25 * 4 else (0.25 : ℚ))
      ∧ (if prev ≠ 0 then min (min f prev / max f prev) 0.25 * 4 else (0.25 : ℚ)) ≤ 1 := by
    by_cases hp : prev ≠ 0
    · rw [if_pos hp]
      have hp0 : 0 < prev := lt_of_le_of_ne hprev (Ne.symm hp)
      have hr : 0 ≤ min f prev / max f prev := by
        apply div_nonneg
        · exact le_min hf.le hp0.le
        · exact le_trans hf.le (le_max_left f prev)
      have h1 : 0 ≤ min (min f prev / max f prev) (0.25 : ℚ) :=
        le_min hr (by norm_num)
      have h2 : min (min f prev / max f prev) (0.25 : ℚ) ≤ 0.25 := min_le_right _ _
      constructor
      · linarith
      · linarith
    · rw [if_neg hp]
      norm_num
  have hsnr1 : 0 ≤ min (log10Q (m / (sumList ((sortDescQ mags).drop (4 * mags.length / 5)) /
      ((mags.length : ℚ) * 0.2) + 1e-10) + 1) / 2) 0.25 := by
    apply le_min
    · have hsnr0 : 0 ≤ m / (sumList ((sortDescQ mags).drop (4 * mags.length / 5)) /
          ((mags.length : ℚ) * 0.2) + 1e-10) := by
        apply div_nonneg (by linarith)
        linarith
      have := hlog _ (by linarith : (1 : ℚ) ≤ m / (sumList ((sortDescQ mags).drop
        (4 * mags.length / 5)) / ((mags.length : ℚ) * 0.2) + 1e-10) + 1)
      linarith
    · norm_num
  have hsnr2 : min (log10Q (m / (sumList ((sortDescQ mags).drop (4 * mags.length / 5)) /
      ((mags.length : ℚ) * 0.2) + 1e-10) + 1) / 2) 0.25 ≤ 0.25 := min_le_right _ _
  have hcond : ((0 < prev ∧ 0 < f) ↔ prev ≠ 0) := by
    constructor
    · rintro ⟨h1, _⟩
      exact ne_of_gt h1
    · intro h1
      exact ⟨lt_of_le_of_ne hprev (Ne.symm h1), hf⟩
  have hcode0 : calculateConfidence log10Q f m hs mags prev
      = max 0 (min 1 ((min (m * m / sumSquares mags) 0.25 * 4
          + min ((hs - 1) / 4) 0.25 * 4
          + (if 0 < prev ∧ 0 < f then min (min f prev / max f prev) 0.25 * 4 else (0.25 : ℚ))
          + min (log10Q (m / (sumList ((sortDescQ mags).drop
              (4 * (sortDescQ mags).length / 5)) /
              (((sortDescQ mags).length : ℚ) * 0.2) + 1e-10) + 1) / 2) 0.25 * 4) / 4)) := rfl
  have hcode : calculateConfidence log10Q f m hs mags prev
      = max 0 (min 1 ((min (m * m / sumSquares mags) 0.25 * 4
          + min ((hs - 1) / 4) 0.25 * 4
          + (if prev ≠ 0 then min (min f prev / max f prev) 0.25 * 4 else (0.25 : ℚ))
          + min (log10Q (m / (sumList ((sortDescQ mags).drop (4 * mags.length / 5)) /
              ((mags.length : ℚ) * 0.2) + 1e-10) + 1) / 2) 0.25 * 4) / 4)) := by
    rw [hcode0, hlen, if_congr hcond rfl rfl]
  have hspec : specConfidenceFormula log10Q f m hs mags prev
      = (min (m * m / sumSquares mags) 0.25 * 4
          + min ((hs - 1) / 4) 0.25 * 4
          + (if prev ≠ 0 then min (min f prev / max f prev) 0.25 * 4 else (0.25 : ℚ))
          + min (log10Q (m / (sumList ((sortDescQ mags).drop (4 * mags.length / 5)) /
              ((mags.length : ℚ) * 0.2) + 1e-10) + 1) / 2) 0.25 * 4) / 4 := rfl
  have hlo : 0 ≤ (min (m * m / sumSquares mags) 0.25 * 4
      + min ((hs - 1) / 4) 0.25 * 4
      + (if prev ≠ 0 then min (min f prev / max f prev) 0.25 * 4 else (0.25 : ℚ))
      + min (log10Q (m / (sumList ((sortDescQ mags).drop (4 * mags.length / 5)) /
          ((mags.length : ℚ) * 0.2) + 1e-10) + 1) / 2) 0.25 * 4) / 4 := by
    have h1 := ht.1
    linarith
  have hhi : (min (m * m / sumSquares mags) 0.25 * 4
      + min ((hs - 1) / 4) 0.25 * 4
      + (if prev ≠ 0 then min (min f prev / max f prev) 0.25 * 4 else (0.25 : ℚ))
      + min (log10Q (m / (sumList ((sortDescQ mags).drop (4 * mags.length / 5)) /
          ((mags.length : ℚ) * 0.2) + 1e-10) + 1) / 2) 0.25 * 4) / 4 ≤ 1 := by
    have h1 := ht.2
    linarith
  refine ⟨?_, ?_, ?_⟩
  · rw [hcode, hspec, min_eq_right hhi, max_eq_right hlo]
  · rw [hspec]; exact hlo
  · rw [hspec]; exact hhi

/-- The per-frame candidate records of the single-pitch estimator. -/
def candidatesOf (log10Q : ℚ → ℚ) (freqs mags : List ℚ) (prev : ℚ) (s e : Nat) :
    List FreqCandidate :=
  (List.range' s (e - s)).filterMap fun i =>
    let freq := freqs.getD i 0
    let magnitude := mags.getD i 0
    if 0.1 < magnitude then
      let harmonicStrength := calculateHarmonicStrength freq freqs mags
      some
        { freq := freq
          strength := magnitude * harmonicStrength
          confidence :=
            calculateConfidence log10Q freq magnitude harmonicStrength mags prev }
    else none

theorem estimate_eq_of_some (log10Q : ℚ → ℚ) (freqs mags : List ℚ) (prev : ℚ) (s e : Nat)
    (hm : ¬ mags.length = 0)
    (h80 : freqs.findIdx? (fun f => decide (80 ≤ f)) = some s)
    (h2000 : freqs.findIdx? (fun f => decide (2000 ≤ f)) = some e) :
    estimateFundamentalFrequencyWithConfidence log10Q freqs mags prev
      = match (candidatesOf log10Q freqs mags prev s e).insertionSort
          (fun a b => b.strength ≤ a.strength) with
        | [] => (0, 0)
        | best :: _ => (best.freq, best.confidence) := by
  unfold estimateFundamentalFrequencyWithConfidence
  rw [if_neg hm, h80, h2000]
  rfl

/-- If a frame reports a nonzero fundamental, the report comes from a
candidate bin `j`: one whose magnitude clears the `0.1` floor, whose bin
frequency is the reported value, and whose `calculateConfidence` value is
the reported confidence. -/
theorem estimate_spec (log10Q : ℚ → ℚ) (freqs mags : List ℚ) (prev : ℚ)
    (hne : (estimateFundamentalFrequencyWithConfidence log10Q freqs mags prev).1 ≠ 0) :
    ∃ j, j < freqs.length ∧ 0.1 < mags.getD j 0
      ∧ (estimateFundamentalFrequencyWithConfidence log10Q freqs mags prev).1
          = freqs.getD j 0
      ∧ (estimateFundamentalFrequencyWithConfidence log10Q freqs mags prev).2
          = calculateConfidence log10Q (freqs.getD j 0) (mags.getD j 0)
              (calculateHarmonicStrength (freqs.getD j 0) freqs mags) mags prev := by
  by_cases hm0 : mags.length = 0
  · exfalso
    apply hne
    have h : estimateFundamentalFrequencyWithConfidence log10Q freqs mags prev = (0, 0) := by
      unfold estimateFundamentalFrequencyWithConfidence
      rw [if_pos hm0]
    rw [h]
  rcases h80 : freqs.findIdx? (fun f => decide (80 ≤ f)) with _ | s
  · exfalso
    apply hne
    have h : estimateFundamentalFrequencyWithConfidence log10Q freqs mags prev = (0, 0) := by
      unfold estimateFundamentalFrequencyWithConfidence
      rw [if_neg hm0, h80]
    rw [h]
  rcases h2000 : freqs.findIdx? (fun f => decide (2000 ≤ f)) with _ | e
  · exfalso
    apply hne
    have h : estimateFundamentalFrequencyWithConfidence log10Q freqs mags prev = (0, 0) := by
      unfold estimateFundamentalFrequencyWithConfidence
      rw [if_neg hm0, h80, h2000]
    rw [h]
  have heq := estimate_eq_of_some log10Q freqs mags prev s e hm0 h80 h2000
  rcases hsorted : (candidatesOf log10Q freqs mags prev s e).insertionSort
      (fun a b => b.strength ≤ a.strength) with _ | ⟨best, rest⟩
  · exfalso
    apply hne
    rw [heq, hsorted]
  · have hres : estimateFundamentalFrequencyWithConfidence log10Q freqs mags prev
        = (best.freq, best.confidence) := by rw [heq, hsorted]
    have hbest_mem : best ∈ candidatesOf log10Q freqs mags prev s e := by
      have h1 : best ∈ (candidatesOf log10Q freqs mags prev s e).insertionSort
          (fun a b => b.strength ≤ a.strength) := by
        rw [hsorted]
        exact List.mem_cons_self best rest
      exact (List.perm_insertionSort _ _).mem_iff.mp h1
    unfold candidatesOf at hbest_mem
    rw [List.mem_filterMap] at hbest_mem
    obtain ⟨i, hir, hfi⟩ := hbest_mem
    rw [List.mem_range'_1] at hir
    obtain ⟨he_lt, _, _⟩ := findIdx?_spec _ _ _ h2000
    by_cases hmag : (0.1 : ℚ) < mags.getD i 0
    · simp only [hmag, if_true, if_pos] at hfi
      have hrec := Option.some.inj hfi
      refine ⟨i, by omega, hmag, ?_, ?_⟩
      · rw [hres, ← hrec]
      · rw [hres, ← hrec]
    · simp only [hmag, if_false] at hfi
      exact absurd hfi (by simp)

theorem estimate_fst_cases (log10Q : ℚ → ℚ) (freqs mags : List ℚ) (prev : ℚ) :
    (estimateFundamentalFrequencyWithConfidence log10Q freqs mags prev).1 = 0
    ∨ (estimateFundamentalFrequencyWithConfidence log10Q freqs mags prev).1 ∈ freqs := by
  by_cases h : (estimateFundamentalFrequencyWithConfidence log10Q freqs mags prev).1 = 0
  · exact Or.inl h
  · obtain ⟨j, hj, _, hfst, _⟩ := estimate_spec log10Q freqs mags prev h
    right
    rw [hfst, List.getD_eq_getElem _ _ hj]
    exact List.getElem_mem hj

theorem extractAux_fst_cases (log10Q : ℚ → ℚ) (freqs : List ℚ) :
    ∀ (frames : List (List ℚ)) (prev : ℚ),
      ∀ r ∈ extractAux log10Q freqs prev frames, r.1 = 0 ∨ r.1 ∈ freqs := by
  intro frames
  induction frames with
  | nil => intro prev r hr; simp [extractAux] at hr
  | cons fr rest ih =>
    intro prev r hr
    simp only [extractAux, List.mem_cons] at hr
    rcases hr with hr | hr
    · rw [hr]
      exact estimate_fst_cases log10Q freqs fr prev
    · exact ih _ r hr

/-- C2. For every frame whose reported fundamental is nonzero — on a
spectrogram with non-negative bins and magnitudes, and with a logarithm
non-negative on `[1, ∞)` — the reported confidence equals the
specification's four-sub-score formula evaluated at the selected candidate
bin, with the previous frame's fundamental as `fPrev` (`0` for frame 0),
and it lies in `[0, 1]`. -/
theorem extractFundamentalFrequency_confidence (log10Q : ℚ → ℚ) (S : SpectrogramData)
    (hfreq : ∀ f ∈ S.frequencies, 0 ≤ f)
    (hmags : ∀ fr ∈ S.magnitudes, ∀ x ∈ fr, 0 ≤ x)
    (hlog : ∀ x : ℚ, 1 ≤ x → 0 ≤ log10Q x)
    (i : Nat) (hi : i < S.magnitudes.length)
    (hnz : (extractFundamentalFrequency log10Q S).frequencies.getD i 0 ≠ 0) :
    ∃ j, j < S.frequencies.length
      ∧ (extractFundamentalFrequency log10Q S).frequencies.getD i 0
          = S.frequencies.getD j 0
      ∧ 0.1 < (S.magnitudes.getD i []).getD j 0
      ∧ (extractFundamentalFrequency log10Q S).confidences.getD i 0
          = specConfidenceFormula log10Q (S.frequencies.getD j 0)
              ((S.magnitudes.getD i []).getD j 0)
              (calculateHarmonicStrength (S.frequencies.getD j 0) S.frequencies
                (S.magnitudes.getD i []))
              (S.magnitudes.getD i [])
              (if i = 0 then 0
               else (extractFundamentalFrequency log10Q S).frequencies.getD (i - 1) 0)
      ∧ 0 ≤ (extractFundamentalFrequency log10Q S).confidences.getD i 0
      ∧ (extractFundamentalFrequency log10Q S).confidences.getD i 0 ≤ 1 := by
  have hfrk : (extractFundamentalFrequency log10Q S).frequencies
      = (extractAux log10Q S.frequencies 0 S.magnitudes).map Prod.fst := rfl
  have hcfk : (extractFundamentalFrequency log10Q S).confidences
      = (extractAux log10Q S.frequencies 0 S.magnitudes).map Prod.snd := rfl
  set results := extractAux log10Q S.frequencies 0 S.magnitudes with hresults
  set prevF : ℚ := if i = 0 then 0 else (results.getD (i - 1) (0, 0)).1 with hprevF
  have hgd := extractAux_getD log10Q S.frequencies S.magnitudes 0 i hi
  rw [← hresults] at hgd
  have hfe : (extractFundamentalFrequency log10Q S).frequencies.getD i 0
      = (results.getD i (0, 0)).1 := by rw [hfrk, getD_map_fst]
  have hce : (extractFundamentalFrequency log10Q S).confidences.getD i 0
      = (results.getD i (0, 0)).2 := by rw [hcfk, getD_map_snd]
  have hprev_eq : (if i = 0 then (0 : ℚ)
      else (extractFundamentalFrequency log10Q S).frequencies.getD (i - 1) 0) = prevF := by
    rw [hprevF]
    by_cases h0 : i = 0
    · rw [if_pos h0, if_pos h0]
    · rw [if_neg h0, if_neg h0, hfrk, getD_map_fst]
  have hne2 : (estimateFundamentalFrequencyWithConfidence log10Q S.frequencies
      (S.magnitudes.getD i []) prevF).1 ≠ 0 := by
    rw [← hgd]
    rw [hfe] at hnz
    exact hnz
  have hframe_nonneg : ∀ x ∈ S.magnitudes.getD i [], 0 ≤ x := by
    rw [List.getD_eq_getElem _ _ hi]
    exact hmags _ (List.getElem_mem hi)
  have hprev_nonneg : 0 ≤ prevF := by
    rw [hprevF]
    by_cases h0 : i = 0
    · rw [if_pos h0]
    · rw [if_neg h0]
      by_cases hi1 : i - 1 < results.length
      · rw [List.getD_eq_getElem _ _ hi1]
        have hmem := List.getElem_mem hi1
        have := extractAux_fst_cases log10Q S.frequencies S.magnitudes 0 _ hmem
        rcases this with h | h
        · rw [h]
        · exact hfreq _ h
      · rw [List.getD_eq_default _ _ (by omega)]
  obtain ⟨j, hj, hmag, hfst, hsnd⟩ :=
    estimate_spec log10Q S.frequencies (S.magnitudes.getD i []) prevF hne2
  have hf_pos : 0 < S.frequencies.getD j 0 := by
    have h1 : 0 ≤ S.frequencies.getD j 0 := getD_nonneg _ _ hfreq
    have h2 : S.frequencies.getD j 0 ≠ 0 := by
      rw [hfe, hgd] at hnz
      rw [← hfst]
      exact hnz
    exact lt_of_le_of_ne h1 (Ne.symm h2)
  have hhs := calculateHarmonicStrength_ge_one (S.frequencies.getD j 0) S.frequencies
    (S.magnitudes.getD i []) hframe_nonneg
  obtain ⟨heq, hlo, hhi⟩ := calculateConfidence_eq_spec log10Q (S.frequencies.getD j 0)
    ((S.magnitudes.getD i []).getD j 0)
    (calculateHarmonicStrength (S.frequencies.getD j 0) S.frequencies
      (S.magnitudes.getD i []))
    (S.magnitudes.getD i []) prevF hf_pos hprev_nonneg hmag hframe_nonneg hhs hlog
  have hconf : (extractFundamentalFrequency log10Q S).confidences.getD i 0
      = specConfidenceFormula log10Q (S.frequencies.getD j 0)
          ((S.magnitudes.getD i []).getD j 0)
          (calculateHarmonicStrength (S.frequencies.getD j 0) S.frequencies
            (S.magnitudes.getD i []))
          (S.magnitudes.getD i []) prevF := by
    rw [hce, hgd, hsnd, heq]
  refine ⟨j, hj, ?_, hmag, ?_, ?_, ?_⟩
  · rw [hfe, hgd, hfst]
  · rw [hprev_eq, hconf]
  · rw [hconf]; exact hlo
  · rw [hconf]; exact hhi

/-- Witness for C2: a one-frame spectrogram whose only candidate bin is
100 Hz with magnitude 1, under the stand-in logarithm `fun x => 0`. -/
theorem extractFundamentalFrequency_confidence_witness :
    ((extractFundamentalFrequency (fun _ => 0)
        { frequencies := [0, 100, 2500], times := [0],
          magnitudes := [[0, 1, 0]] }).frequencies.getD 0 0 ≠ 0)
    ∧ ∃ j, j < ([0, 100, 2500] : List ℚ).length
        ∧ (extractFundamentalFrequency (fun _ => 0)
            { frequencies := [0, 100, 2500], times := [0],
              magnitudes := [[0, 1, 0]] }).frequencies.getD 0 0
            = ([0, 100, 2500] : List ℚ).getD j 0
        ∧ 0.1 < (([[0, 1, 0]] : List (List ℚ)).getD 0 []).getD j 0
        ∧ (extractFundamentalFrequency (fun _ => 0)
            { frequencies := [0, 100, 2500], times := [0],
              magnitudes := [[0, 1, 0]] }).confidences.getD 0 0
            = specConfidenceFormula (fun _ => 0) (([0, 100, 2500] : List ℚ).getD j 0)
                ((([[0, 1, 0]] : List (List ℚ)).getD 0 []).getD j 0)
                (calculateHarmonicStrength (([0, 100, 2500] : List ℚ).getD j 0)
                  [0, 100, 2500] (([[0, 1, 0]] : List (List ℚ)).getD 0 []))
                (([[0, 1, 0]] : List (List ℚ)).getD 0 [])
                (if (0 : Nat) = 0 then 0
                 else (extractFundamentalFrequency (fun _ => 0)
                    { frequencies := [0, 100, 2500], times := [0],
                      magnitudes := [[0, 1, 0]] }).frequencies.getD (0 - 1) 0)
        ∧ 0 ≤ (extractFundamentalFrequency (fun _ => 0)
            { frequencies := [0, 100, 2500], times := [0],
              magnitudes := [[0, 1, 0]] }).confidences.getD 0 0
        ∧ (extractFundamentalFrequency (fun _ => 0)
            { frequencies := [0, 100, 2500], times := [0],
              magnitudes := [[0, 1, 0]] }).confidences.getD 0 0 ≤ 1 := by
  have h80 : ([0, 100, 2500] : List ℚ).findIdx? (fun f => decide (80 ≤ f)) = some 1 := by
    simp [List.findIdx?_cons]
    norm_num
  have h2000 : ([0, 100, 2500] : List ℚ).findIdx? (fun f => decide (2000 ≤ f)) = some 2 := by
    simp [List.findIdx?_cons]
    norm_num
  have hcand : candidatesOf (fun _ => 0) [0, 100, 2500] [0, 1, 0] 0 1 2
      = [{ freq := 100,
           strength := 1 * calculateHarmonicStrength 100 [0, 100, 2500] [0, 1, 0],
           confidence := calculateConfidence (fun _ => 0) 100 1
             (calculateHarmonicStrength 100 [0, 100, 2500] [0, 1, 0]) [0, 1, 0] 0 }] := by
    unfold candidatesOf
    norm_num [List.range', List.filterMap]
  have hval : (extractFundamentalFrequency (fun _ => 0)
      { frequencies := [0, 100, 2500], times := [0],
        magnitudes := [[0, 1, 0]] }).frequencies.getD 0 0
      = (estimateFundamentalFrequencyWithConfidence (fun _ => 0)
          [0, 100, 2500] [0, 1, 0] 0).1 := rfl
  have hest := estimate_eq_of_some (fun _ => 0) [0, 100, 2500] [0, 1, 0] 0 1 2
    (by norm_num) h80 h2000
  have hnz : (extractFundamentalFrequency (fun _ => 0)
      { frequencies := [0, 100, 2500], times := [0],
        magnitudes := [[0, 1, 0]] }).frequencies.getD 0 0 ≠ 0 := by
    rw [hval, hest, hcand]
    norm_num [List.insertionSort, List.orderedInsert]
  refine ⟨hnz, ?_⟩
  exact extractFundamentalFrequency_confidence (fun _ => 0)
    { frequencies := [0, 100, 2500], times := [0], magnitudes := [[0, 1, 0]] }
    (by intro f hf; fin_cases hf <;> norm_num)
    (by intro fr hfr x hx; fin_cases hfr; fin_cases hx <;> norm_num)
    (fun x _ => le_refl 0)
    0 (by norm_num) hnz

end SpectrumAnalysis
